import Mathlib

/-!
Verification of the PyViewDock `Docked` entry registry
(`src/PyViewDock/docked.py`) against its specification.

The registry is shallowly embedded: Python dicts become insertion-ordered
association lists with unique-key operations, the PyMOL host's object
namespace (`cmd.get_names('objects')`) becomes an explicit `List String`
threaded through every operation that consults or mutates it, and every
Python `raise` becomes an `Except` error value.  Machine details that the
registry logic never relies on (3-D coordinates, rendering) are carried as
opaque strings exactly where the source carries them as opaque text blocks.
-/

namespace PyViewDock

/-- Scalar values stored in a remark dictionary.  The embedded fragment of
the source stores Python `None`, `int` and `str` values (`Cluster` and
`ClusterRank` are parsed with `int(...)`, XYZ comments are stripped strings,
equalization back-fills `None`).  Python `==` across these types is
structural equality, matching the derived `DecidableEq`. -/
inductive Value where
  | vNone : Value
  | vInt : Int → Value
  | vStr : String → Value
deriving DecidableEq, Repr

/-- `str(value)` for the embedded value universe. -/
def pyStr : Value → String
  | .vNone => "None"
  | .vInt n => toString n
  | .vStr s => s

/-- A Python dict `str -> value`: insertion-ordered association list with
unique keys maintained by the operations below. -/
abbrev Remarks := List (String × Value)

/-- Keys of a dict, in insertion order (`dict.keys()`). -/
def keys (r : Remarks) : List String := r.map Prod.fst

/-- Dict lookup `r[k]` as an `Option` (`none` models `KeyError`). -/
def rget : Remarks → String → Option Value
  | [], _ => none
  | (k', v) :: t, k => if k' = k then some v else rget t k

/-- `r.setdefault(k, v)`: insert `k ↦ v` only when `k` is absent. -/
def setdefault (r : Remarks) (k : String) (v : Value) : Remarks :=
  if k ∈ keys r then r else r ++ [(k, v)]

/-- One registry entry: the `remarks` dict plus the `internal` dict
`{'object': str, 'state': int}` of `Docked.entries`. -/
structure Entry where
  remarks : Remarks
  obj : String
  state : Int
deriving DecidableEq, Repr

/-- Error conditions: one constructor per distinct `raise` site reached by
the embedded operations. -/
inductive Err where
  | indexError : Err
  | keyError : Err
  | invalidCriteria : Err
  | unknownFormat : Err
  | noEntries : Err
  | missingClusterRank : Err
  | missingCluster : Err
  | intValueError : Err
  | outOfFuel : Err
  | floatNotModelled : Err
deriving DecidableEq, Repr

instance {ε α : Type} [DecidableEq ε] [DecidableEq α] :
    DecidableEq (Except ε α) := fun x y =>
  match x, y with
  | .error a, .error b =>
      if h : a = b then .isTrue (congrArg Except.error h)
      else .isFalse fun hc => h (Except.error.inj hc)
  | .ok a, .ok b =>
      if h : a = b then .isTrue (congrArg Except.ok h)
      else .isFalse fun hc => h (Except.ok.inj hc)
  | .error _, .ok _ => .isFalse fun hc => Except.noConfusion hc
  | .ok _, .error _ => .isFalse fun hc => Except.noConfusion hc

/-- `Docked.objects`: the set of internal object names, modelled as the
first-occurrence list (Python iterates it as an unordered set; the embedding
fixes first-occurrence order). -/
def objectsList (entries : List Entry) : List String :=
  (entries.map (·.obj)).dedup

/-- `Docked.remarks`: union of all remark keys over all entries
(first-occurrence order; Python builds an unordered set). -/
def remarksUnion (entries : List Entry) : List String :=
  (entries.foldr (fun e acc => keys e.remarks ++ acc) []).dedup

/-- Lookup in the unified entry dict `{**internal, **remarks}`: remark keys
shadow the internal `object`/`state` fields because the remarks are unpacked
second. -/
def unifiedLookup (e : Entry) (k : String) : Option Value :=
  match rget e.remarks k with
  | some v => some v
  | none =>
      if k = "object" then some (.vStr e.obj)
      else if k = "state" then some (.vInt e.state)
      else none

/-- `all(entry[key] == value for ...)` with Python short-circuit: a missing
key raises `KeyError` unless an earlier comparison already returned
`False`. -/
def evalAll (e : Entry) : List (String × Value) → Except Err Bool
  | [] => .ok true
  | (k, v) :: t =>
      match unifiedLookup e k with
      | none => .error .keyError
      | some w => if w = v then evalAll e t else .ok false

/-- `any(entry[key] == value for ...)` with Python short-circuit. -/
def evalAny (e : Entry) : List (String × Value) → Except Err Bool
  | [] => .ok false
  | (k, v) :: t =>
      match unifiedLookup e k with
      | none => .error .keyError
      | some w => if w = v then .ok true else evalAny e t

/-- The enumerate-filter comprehension of `Docked.findall`, collecting the
indices (offset by `n`) of entries whose unified dict matches. -/
def findallGo (matchAll : Bool) (criteria : List (String × Value)) :
    List Entry → Nat → Except Err (List Nat)
  | [], _ => .ok []
  | e :: t, n => do
      let b ← (if matchAll then evalAll else evalAny) e criteria
      let rest ← findallGo matchAll criteria t (n + 1)
      .ok (if b then n :: rest else rest)

/-- `Docked.findall`: reject criteria keys that are neither a known remark
nor `object`/`state`, then collect matching indices in ascending order. -/
def findall (entries : List Entry) (matchAll : Bool)
    (criteria : List (String × Value)) : Except Err (List Nat) :=
  if criteria.any
      (fun kv => !(remarksUnion entries).contains kv.1
        && kv.1 != "object" && kv.1 != "state") then
    .error .invalidCriteria
  else
    findallGo matchAll criteria entries 0

/-- `Docked.find`: index of the first match, `None` when there is none. -/
def find (entries : List Entry) (matchAll : Bool)
    (criteria : List (String × Value)) : Except Err (Option Nat) :=
  match findall entries matchAll criteria with
  | .error er => .error er
  | .ok l => .ok l.head?

/-- The in-place renumbering loop of `Docked.remove_ndx`: every entry whose
position is in `idxs` (the matches of `findall(object=object)`) has its
state decremented by `int(entry_state > state)` when `update` is set. -/
def renumberFrom (idxs : List Nat) (s : Int) (update : Bool) :
    Nat → List Entry → List Entry
  | _, [] => []
  | i, x :: t =>
      (if i ∈ idxs ∧ update = true ∧ s < x.state
        then { x with state := x.state - 1 } else x)
        :: renumberFrom idxs s update (i + 1) t

/-- `Docked.remove_ndx`: delete the entry at `ndx`; when its object is still
known to the host, rebuild the host object from the surviving sibling states
(restoring the name unless no sibling remains, in which case the host object
stays deleted) and, when `update`, decrement the state of each surviving
entry matched by `findall(object=object)` whose state exceeds the removed
one.  Returns the host name set together with the new entry list. -/
def remove_ndx (host : List String) (entries : List Entry) (ndx : Nat)
    (update : Bool) : Except Err (List String × List Entry) :=
  match entries[ndx]? with
  | none => .error .indexError
  | some e =>
      let entries' := entries.eraseIdx ndx
      if e.obj ∈ host then
        match findall entries' true [("object", .vStr e.obj)] with
        | .error er => .error er
        | .ok idxs =>
            .ok ((if idxs.isEmpty then host.erase e.obj else host),
              renumberFrom idxs e.state update 0 entries')
      else
        .ok (host, entries')

/-- Insert `x` into a descending list (used to model
`sorted(matching_index, reverse=True)`). -/
def insertGe (x : Nat) : List Nat → List Nat
  | [] => [x]
  | y :: t => if y ≤ x then x :: y :: t else y :: insertGe x t

/-- Sort a list of indices in descending order. -/
def sortDesc (l : List Nat) : List Nat := l.foldr insertGe []

/-- `Docked.remove`: compute the matches once, then remove them by index in
descending order (so the indices stay valid during the batch), renumbering
at every step. -/
def removeMatching (host : List String) (entries : List Entry)
    (matchAll : Bool) (criteria : List (String × Value)) :
    Except Err (List String × List Entry) := do
  let idxs ← findall entries matchAll criteria
  (sortDesc idxs).foldlM
    (fun st n => remove_ndx st.1 st.2 n true) (host, entries)

/-- `Docked.remove_without_objects`: for every internal object name absent
from the host (the set difference is computed once, iterated here in
first-occurrence order), remove the entries matching `object=<name>`. -/
def remove_without_objects (host : List String) (entries : List Entry) :
    Except Err (List String × List Entry) :=
  ((objectsList entries).filter (fun o => !host.contains o)).foldlM
    (fun st o => removeMatching st.1 st.2 true [("object", .vStr o)])
    (host, entries)

/-- `for remark in all_remarks: entry['remarks'].setdefault(remark, None)`. -/
def backfill (r : Remarks) (ks : List String) : Remarks :=
  ks.foldl (fun acc k => setdefault acc k .vNone) r

/-- `Docked.equalize_remarks`: prune entries without a host object, then
back-fill every entry with every known remark key, using `None` for keys the
entry did not have. -/
def equalize_remarks (host : List String) (entries : List Entry) :
    Except Err (List String × List Entry) := do
  let (h', es) ← remove_without_objects host entries
  let allRemarks := remarksUnion es
  .ok (h', es.map (fun e => { e with remarks := backfill e.remarks allRemarks }))

/-- Add a host object name, keeping the namespace a set. -/
def addObject (host : List String) (o : String) : List String :=
  if o ∈ host then host else host ++ [o]

/-- Mode-1 loop of `Docked.load_dock4`: keep only the poses whose
`ClusterRank` remark equals `0`, renumbering their states with the running
counter `n_state`; the parallel pose text blocks are kept for
`read_pdbstr`. -/
def mode1Go (nstate : Int) :
    List (Entry × String) → Except Err (List Entry × List String)
  | [] => .ok ([], [])
  | (e, p) :: t =>
      match rget e.remarks "ClusterRank" with
      | none => .error .keyError
      | some v =>
          if v = .vInt 0 then do
            let (es, ps) ← mode1Go (nstate + 1) t
            .ok ({ e with state := nstate + 1 } :: es, p :: ps)
          else
            mode1Go nstate t

/-- `pdb_tmp.setdefault(object_new, []).append(p)` on the insertion-ordered
dict of per-cluster pose blocks. -/
def groupAppend (g : List (String × List String)) (k : String) (p : String) :
    List (String × List String) :=
  match g with
  | [] => [(k, [p])]
  | (k', l) :: t => if k' = k then (k', l ++ [p]) :: t else (k', l) :: groupAppend t k p

/-- `len(pdb_tmp[object_new])` after the append. -/
def groupGet (g : List (String × List String)) (k : String) : List String :=
  match g with
  | [] => []
  | (k', l) :: t => if k' = k then l else groupGet t k

/-- Mode-2 loop of `Docked.load_dock4`: route every pose to the object named
after its `Cluster` remark and set its state to `len(pdb_tmp[object_new]) + 1`
as the source does (reading the length after the append). -/
def mode2Go (object : String) (groups : List (String × List String)) :
    List (Entry × String) →
    Except Err (List Entry × List (String × List String))
  | [] => .ok ([], groups)
  | (e, p) :: t =>
      match rget e.remarks "Cluster" with
      | none => .error .keyError
      | some v =>
          let objNew := object ++ "-" ++ pyStr v
          let groups' := groupAppend groups objNew p
          let cnt := (groupGet groups' objNew).length
          do
            let (es, gs) ← mode2Go object groups' t
            .ok ({ e with obj := objNew, state := (cnt : Int) + 1 } :: es, gs)

/-- The set-internals loop of `Docked.load_dock4`
(`for n, i in enumerate(entries): ... object ... state = n + 1`), keeping
each entry paired with its PDB text block for the later `zip(entries, pdb)`
loops. -/
def setInternals (object : String) : Int → List (Remarks × String) →
    List (Entry × String)
  | _, [] => []
  | n, (r, p) :: t =>
      ({ remarks := r, obj := object, state := n + 1 }, p)
        :: setInternals object (n + 1) t

/-- The mode-dispatch stage of `Docked.load_dock4`, acting on the parsed
poses (each a remark dict paired with its PDB text block) after the
set-internals loop assigned `object` and states `1..n`.  Returns the groups
of pose blocks handed to `read_pdbstr` (one per created host object) and the
new entries. -/
def load_dock4_mode (object : String) (mode : String)
    (poses : List (Remarks × String)) :
    Except Err (List (String × List String) × List Entry) :=
  let zipped := setInternals object 0 poses
  let entries0 := zipped.map Prod.fst
  if mode = "1" then
    if !entries0.all (fun e => (keys e.remarks).contains "ClusterRank") then
      .error .missingClusterRank
    else
      match mode1Go 0 zipped with
      | .error er => .error er
      | .ok (es, ps) => .ok ([(object, ps)], es)
  else if mode = "2" then
    if !entries0.all (fun e => (keys e.remarks).contains "Cluster") then
      .error .missingCluster
    else
      match mode2Go object [] zipped with
      | .error er => .error er
      | .ok (es, gs) => .ok (gs, es)
  else
    .ok ([(object, poses.map Prod.snd)], entries0)

/-- `Docked.load_dock4` end to end on parsed poses: run the mode stage,
register the created objects with the host (`read_pdbstr` targets), extend
the registry and equalize remarks. -/
def load_dock4 (host : List String) (registry : List Entry) (object : String)
    (mode : String) (poses : List (Remarks × String)) :
    Except Err (List String × List Entry) := do
  let (groups, newEntries) ← load_dock4_mode object mode poses
  let host' := (groups.map Prod.fst).foldl addObject host
  equalize_remarks host' (registry ++ newEntries)

/-- Python `str.strip()`: drop leading and trailing whitespace
(implemented over the character list so that it evaluates by reduction). -/
def pyStrip (s : String) : String :=
  String.mk
    (((s.data.dropWhile Char.isWhitespace).reverse.dropWhile
      Char.isWhitespace).reverse)

/-- Decimal digit accumulator for `int(...)`. -/
def pyNatOfDigits (l : List Char) : Option Nat :=
  l.foldl (fun acc c =>
    match acc with
    | none => none
    | some n => if c.isDigit then some (n * 10 + (c.toNat - 48)) else none)
    (some 0)

/-- Python `int(s)`: surrounding whitespace tolerated, optional sign,
failure (`ValueError`) is `none`. -/
def pyInt (s : String) : Option Int :=
  match (pyStrip s).data with
  | [] => none
  | c :: rest =>
      if c = '-' then
        if rest = [] then none
        else (pyNatOfDigits rest).map (fun n => -(n : Int))
      else if c = '+' then
        if rest = [] then none
        else (pyNatOfDigits rest).map (fun n => (n : Int))
      else (pyNatOfDigits (c :: rest)).map (fun n => (n : Int))

/-- Python list indexing, negative indices counting from the end;
`none` models `IndexError`. -/
def pyIndex (l : List String) (i : Int) : Option String :=
  if 0 ≤ i then l[i.toNat]?
  else if (-i).toNat ≤ l.length then l[l.length - (-i).toNat]? else none

/-- `isinstance(value, float)`: no value of the embedded universe
(`None`, `int`, `str`) is a Python float, so this is always `False`. -/
def pyIsFloat (_ : Value) : Bool := false

/-- `float(value)`: the coercion arm of `load_xyz` is only reachable for the
empty comment list (see `pyIsFloat`), where `mapM` never calls it, so
floating point is left unmodelled behind an error value. -/
def pyFloat (_ : Value) : Except Err Value := .error .floatNotModelled

/-- The comment-scanning `while` loop of `Docked.load_xyz`: read the atom
count, record the stripped comment line, jump `natoms + 2` lines ahead.  The
cursor is a Python `int`; `fuel` bounds the iterations (a terminating Python
run on `n` lines makes at most `n/2` steps; exhaustion models the infinite
loop the source enters when `natoms + 2 <= 0`). -/
def xyzGo (lines : List String) : Nat → Int → Except Err (List Value)
  | 0, _ => .error .outOfFuel
  | fuel + 1, nline =>
      if nline < (lines.length : Int) then
        match pyIndex lines nline with
        | none => .error .indexError
        | some l0 =>
            match pyInt l0 with
            | none => .error .intValueError
            | some natoms =>
                match pyIndex lines (nline + 1) with
                | none => .error .indexError
                | some l1 => do
                    let rest ← xyzGo lines fuel (nline + natoms + 2)
                    .ok (.vStr (pyStrip l1) :: rest)
      else
        .ok []

/-- Comment extraction of `Docked.load_xyz` over the file lines. -/
def xyzComments (lines : List String) : Except Err (List Value) :=
  xyzGo lines (lines.length + 1) 0

/-- The entry-appending loop of `Docked.load_xyz`
(`for n, comm in enumerate(comments)`): remarks
`{'structure': n+1, 'value': comm}` and state `n+1`. -/
def xyzEntries (object : String) : Int → List Value → List Entry
  | _, [] => []
  | n, comm :: t =>
      { remarks := [("structure", .vInt (n + 1)), ("value", comm)],
        obj := object, state := n + 1 } :: xyzEntries object (n + 1) t

/-- `Docked.load_xyz`: extract one comment per frame, apply the (dead)
float-coercion guard, append one entry per comment with remarks
`{'structure': n+1, 'value': comment}` and contiguous states, load the file
into the host object, and equalize remarks. -/
def load_xyz (host : List String) (registry : List Entry)
    (lines : List String) (object : String) :
    Except Err (List String × List Entry) := do
  let comments ← xyzComments lines
  let comments ←
    if comments.all pyIsFloat then comments.mapM pyFloat else pure comments
  equalize_remarks (addObject host object)
    (registry ++ xyzEntries object 0 comments)

/-- Python `str.lower()` (the formats compared here are plain ASCII). -/
def pyLower (s : String) : String := String.mk (s.data.map Char.toLower)

/-- `remarks = list(self.entries[0]['remarks'].keys())`: the first entry's
remark keys (the empty-registry case is unreachable past the entry check). -/
def headKeys : List Entry → List String
  | [] => []
  | e :: _ => keys e.remarks

/-- Field joiner by format: `;` for csv, two spaces for txt. -/
def exportJoiner (fmt : String) : String := if fmt = "csv" then ";" else "  "

/-- `Docked.export_data` on an explicit `format` (the source lowercases it
and rejects anything but `csv`/`txt`): produce the written lines, a header
of the first entry's remark keys followed by one line per entry, fields
joined by `;` (csv) or two spaces (txt), the txt header prefixed by `#  `.
Each returned string carries its trailing newline as written. -/
def export_data (entries : List Entry) (format : String) :
    Except Err (List String) :=
  if entries.length = 0 then .error .noEntries
  else if pyLower format = "csv" ∨ pyLower format = "txt" then
    match entries.mapM
      (fun e => ((headKeys entries).mapM
          (fun r => match rget e.remarks r with
            | none => Except.error Err.keyError
            | some v => Except.ok (pyStr v))).map
        (fun fields =>
          String.intercalate (exportJoiner (pyLower format)) fields ++ "\n")) with
    | .error er => .error er
    | .ok rows =>
        .ok ((if pyLower format = "txt"
            then "#  " ++ String.intercalate (exportJoiner (pyLower format))
              (headKeys entries) ++ "\n"
            else String.intercalate (exportJoiner (pyLower format))
              (headKeys entries) ++ "\n") :: rows)
  else
    .error .unknownFormat

/-! ### Dictionary lemmas -/

theorem rget_isSome_iff_mem_keys (r : Remarks) (k : String) :
    (rget r k).isSome = true ↔ k ∈ keys r := by
  induction r with
  | nil => simp [rget, keys]
  | cons kv t ih =>
      obtain ⟨k', v⟩ := kv
      by_cases h : k' = k <;> simp [rget, keys, h, ih]
      exact fun h' => (h h'.symm).elim

theorem rget_eq_none_of_not_mem_keys {r : Remarks} {k : String}
    (h : k ∉ keys r) : rget r k = none := by
  cases hr : rget r k with
  | none => rfl
  | some v =>
      exact absurd ((rget_isSome_iff_mem_keys r k).mp (by simp [hr])) h

theorem mem_keys_of_rget_eq_some {r : Remarks} {k : String} {v : Value}
    (h : rget r k = some v) : k ∈ keys r :=
  (rget_isSome_iff_mem_keys r k).mp (by simp [h])

theorem rget_append_right (r : Remarks) (k k' : String) (v : Value)
    (h : k ∉ keys r) : rget (r ++ [(k', v)]) k =
      if k' = k then some v else none := by
  induction r with
  | nil => simp [rget]
  | cons kv t ih =>
      obtain ⟨k₀, v₀⟩ := kv
      simp only [keys, List.map_cons, List.mem_cons] at h
      push_neg at h
      have h0 : ¬k₀ = k := fun hc => h.1 hc.symm
      simp [rget, h0, ih (by simpa [keys] using h.2)]

theorem rget_append_left (r : Remarks) (k k' : String) (v : Value)
    (h : k ∈ keys r) : rget (r ++ [(k', v)]) k = rget r k := by
  induction r with
  | nil => simp [keys] at h
  | cons kv t ih =>
      obtain ⟨k₀, v₀⟩ := kv
      by_cases h0 : k₀ = k
      · simp [rget, h0]
      · simp only [keys, List.map_cons, List.mem_cons] at h
        rcases h with h | h
        · exact absurd h.symm h0
        · simp [rget, h0, ih (by simpa [keys] using h)]

theorem rget_setdefault (r : Remarks) (k k' : String) (v : Value) :
    rget (setdefault r k' v) k =
      match rget r k with
      | some w => some w
      | none => if k' = k ∧ k' ∉ keys r then some v else none := by
  unfold setdefault
  by_cases hm : k' ∈ keys r
  · simp only [if_pos hm]
    cases hr : rget r k <;> simp [hm]
  · simp only [if_neg hm]
    cases hr : rget r k with
    | some w =>
        rw [rget_append_left r k k' v (mem_keys_of_rget_eq_some hr), hr]
    | none =>
        have hk : k ∉ keys r := fun hc => by
          have hs := (rget_isSome_iff_mem_keys r k).mpr hc
          rw [hr] at hs
          simp at hs
        rw [rget_append_right r k k' v hk]
        by_cases he : k' = k <;> simp [he, hm, hk]

theorem keys_setdefault (r : Remarks) (k k' : String) (v : Value) :
    k ∈ keys (setdefault r k' v) ↔ k ∈ keys r ∨ k = k' := by
  unfold setdefault
  by_cases hm : k' ∈ keys r
  · simp only [if_pos hm]
    constructor
    · exact fun h => Or.inl h
    · rintro (h | h)
      · exact h
      · exact h ▸ hm
  · rw [if_neg hm]
    show k ∈ keys (r ++ [(k', v)]) ↔ _
    simp only [keys, List.map_append, List.mem_append, List.map_cons,
      List.map_nil, List.mem_singleton]

theorem rget_backfill (r : Remarks) (ks : List String) (k : String) :
    rget (backfill r ks) k =
      match rget r k with
      | some w => some w
      | none => if k ∈ ks then some .vNone else none := by
  induction ks generalizing r with
  | nil => cases hr : rget r k <;> simp [backfill, hr]
  | cons k0 t ih =>
      show rget (backfill (setdefault r k0 .vNone) t) k = _
      rw [ih]
      rw [rget_setdefault]
      cases hr : rget r k with
      | some w => simp
      | none =>
          by_cases he : k0 = k
          · subst he
            by_cases hm : k0 ∈ keys r
            · exact absurd ((rget_isSome_iff_mem_keys r k0).mpr hm)
                (by simp [hr])
            · simp [hm]
          · have hek : ¬k = k0 := fun h => he h.symm
            simp only [he, false_and, if_false]
            by_cases ht : k ∈ t <;> simp [ht, he, hek]

theorem mem_keys_backfill (r : Remarks) (ks : List String) (k : String) :
    k ∈ keys (backfill r ks) ↔ k ∈ keys r ∨ k ∈ ks := by
  constructor
  · intro h
    have := (rget_isSome_iff_mem_keys _ k).mpr h
    rw [rget_backfill] at this
    cases hr : rget r k with
    | some w => exact Or.inl (mem_keys_of_rget_eq_some hr)
    | none =>
        rw [hr] at this
        by_cases ht : k ∈ ks
        · exact Or.inr ht
        · simp [ht] at this
  · intro h
    rw [← rget_isSome_iff_mem_keys, rget_backfill]
    cases hr : rget r k with
    | some w => simp
    | none =>
        rcases h with h | h
        · rw [← rget_isSome_iff_mem_keys, hr] at h
          simp at h
        · simp [h]

theorem backfill_preserves (r : Remarks) (ks : List String) (k : String)
    (v : Value) (h : rget r k = some v) : rget (backfill r ks) k = some v := by
  rw [rget_backfill, h]

theorem backfill_new (r : Remarks) (ks : List String) (k : String)
    (hk : k ∉ keys r) (hks : k ∈ ks) :
    rget (backfill r ks) k = some .vNone := by
  rw [rget_backfill, rget_eq_none_of_not_mem_keys hk]
  simp [hks]

theorem backfill_id (r : Remarks) (ks : List String)
    (h : ∀ k ∈ ks, k ∈ keys r) : backfill r ks = r := by
  induction ks generalizing r with
  | nil => rfl
  | cons k0 t ih =>
      show backfill (setdefault r k0 .vNone) t = r
      have hs : setdefault r k0 .vNone = r := by
        unfold setdefault
        simp [h k0 (by simp)]
      rw [hs]
      exact ih r fun k hk => h k (by simp [hk])

/-! ### Matching positions and `findall` characterization -/

/-- The unified-dict object test used by `findall(object=o)`: remark keys
shadow the internal `object` field. -/
def pObj (o : String) (e : Entry) : Bool :=
  decide (unifiedLookup e "object" = some (.vStr o))

/-- Positions (offset by `n`) of the entries satisfying `p`. -/
def posListFrom (p : Entry → Bool) : Nat → List Entry → List Nat
  | _, [] => []
  | n, e :: t =>
      if p e then n :: posListFrom p (n + 1) t else posListFrom p (n + 1) t

theorem posListFrom_ge {p : Entry → Bool} {n x : Nat} {l : List Entry}
    (h : x ∈ posListFrom p n l) : n ≤ x := by
  induction l generalizing n with
  | nil => simp [posListFrom] at h
  | cons e t ih =>
      by_cases hp : p e
      · simp only [posListFrom, if_pos hp, List.mem_cons] at h
        rcases h with h | h
        · omega
        · have := ih h
          omega
      · simp only [posListFrom, if_neg hp] at h
        have := ih h
        omega

theorem posListFrom_mem {p : Entry → Bool} {n x : Nat} {l : List Entry} :
    x ∈ posListFrom p n l ↔
      ∃ j, ∃ h : j < l.length, x = n + j ∧ p (l.get ⟨j, h⟩) = true := by
  induction l generalizing n with
  | nil => simp [posListFrom]
  | cons e t ih =>
      constructor
      · intro h
        by_cases hp : p e
        · simp only [posListFrom, if_pos hp, List.mem_cons] at h
          rcases h with h | h
          · exact ⟨0, by simp, by omega, by simpa using hp⟩
          · obtain ⟨j, hj, hx, hpj⟩ := ih.mp h
            exact ⟨j + 1, by simpa using hj, by omega, by simpa using hpj⟩
        · simp only [posListFrom, if_neg hp] at h
          obtain ⟨j, hj, hx, hpj⟩ := ih.mp h
          exact ⟨j + 1, by simpa using hj, by omega, by simpa using hpj⟩
      · rintro ⟨j, hj, hx, hpj⟩
        cases j with
        | zero =>
            simp only [List.get] at hpj
            simp [posListFrom, hpj, hx]
        | succ j =>
            have hm : x ∈ posListFrom p (n + 1) t :=
              ih.mpr ⟨j, by simpa using hj, by omega, by simpa using hpj⟩
            by_cases hp : p e <;> simp [posListFrom, hp, hm]

theorem posListFrom_pairwise (p : Entry → Bool) (n : Nat) (l : List Entry) :
    (posListFrom p n l).Pairwise (· < ·) := by
  induction l generalizing n with
  | nil => simp [posListFrom]
  | cons e t ih =>
      by_cases hp : p e
      · simp only [posListFrom, if_pos hp]
        refine List.Pairwise.cons ?_ (ih (n + 1))
        intro x hx
        have := posListFrom_ge hx
        omega
      · simpa [posListFrom, hp] using ih (n + 1)

theorem posListFrom_eq_nil_iff {p : Entry → Bool} {n : Nat} {l : List Entry} :
    posListFrom p n l = [] ↔ ∀ e ∈ l, p e = false := by
  induction l generalizing n with
  | nil => simp [posListFrom]
  | cons e t ih =>
      by_cases hp : p e
      · simp [posListFrom, hp]
      · simp only [posListFrom, if_neg hp, List.mem_cons]
        rw [ih]
        constructor
        · intro h x hx
          rcases hx with hx | hx
          · subst hx
            simpa using hp
          · exact h x hx
        · intro h x hx
          exact h x (Or.inr hx)

theorem unifiedLookup_obj_isSome (e : Entry) :
    ∃ w, unifiedLookup e "object" = some w := by
  unfold unifiedLookup
  cases rget e.remarks "object" with
  | some v => exact ⟨v, rfl⟩
  | none => exact ⟨.vStr e.obj, by simp⟩

theorem evalAll_obj (e : Entry) (o : String) :
    evalAll e [("object", .vStr o)] = .ok (pObj o e) := by
  obtain ⟨w, hw⟩ := unifiedLookup_obj_isSome e
  unfold evalAll pObj
  rw [hw]
  by_cases h : w = .vStr o
  · subst h
    simp [evalAll, hw]
  · simp only [if_neg h]
    have hws : ¬(some w = some (Value.vStr o)) := by simpa using h
    rw [decide_eq_false hws]

theorem findallGo_obj (o : String) (l : List Entry) (n : Nat) :
    findallGo true [("object", .vStr o)] l n =
      .ok (posListFrom (pObj o) n l) := by
  induction l generalizing n with
  | nil => rfl
  | cons e t ih =>
      show (do
        let b ← evalAll e [("object", .vStr o)]
        let rest ← findallGo true [("object", .vStr o)] t (n + 1)
        Except.ok (if b then n :: rest else rest)) = _
      rw [evalAll_obj, ih]
      show Except.ok (if pObj o e then _ else _) = _
      by_cases hp : pObj o e <;> simp [posListFrom, hp]

theorem findall_obj (entries : List Entry) (o : String) :
    findall entries true [("object", .vStr o)] =
      .ok (posListFrom (pObj o) 0 entries) := by
  unfold findall
  rw [if_neg (by simp)]
  exact findallGo_obj o entries 0

/-! ### Descending sort on strictly increasing position lists -/

theorem insertGe_of_forall_lt {x : Nat} {m : List Nat}
    (h : ∀ y ∈ m, ¬y ≤ x) : insertGe x m = m ++ [x] := by
  induction m with
  | nil => rfl
  | cons y t ih =>
      have hy : ¬y ≤ x := h y (by simp)
      simp only [insertGe, if_neg hy, List.cons_append, List.cons.injEq,
        true_and]
      exact ih fun z hz => h z (by simp [hz])

theorem sortDesc_of_pairwise {l : List Nat} (h : l.Pairwise (· < ·)) :
    sortDesc l = l.reverse := by
  induction l with
  | nil => rfl
  | cons x t ih =>
      have hx : ∀ y ∈ t, x < y := fun y hy => (List.pairwise_cons.mp h).1 y hy
      show insertGe x (sortDesc t) = _
      rw [ih (List.pairwise_cons.mp h).2]
      rw [insertGe_of_forall_lt (fun y hy => by
        have := hx y (List.mem_reverse.mp hy)
        omega)]
      simp

/-! ### Structural relations between registry snapshots -/

/-- No entry shadows the internal `object` field with a remark key
`"object"` (the normal situation: no bundled loader produces such a key). -/
def NoShadow (entries : List Entry) : Prop :=
  ∀ e ∈ entries, "object" ∉ keys e.remarks

instance (entries : List Entry) : Decidable (NoShadow entries) :=
  inferInstanceAs (Decidable (∀ e ∈ entries, "object" ∉ keys e.remarks))

/-- Every entry of `r'` is an entry of `r` up to its `state` field: the
removal pipeline only deletes entries and renumbers states. -/
def Descend (r r' : List Entry) : Prop :=
  ∀ e' ∈ r', ∃ e ∈ r, e'.remarks = e.remarks ∧ e'.obj = e.obj

/-- No entry of `r` matches `findall(object=o)`. -/
def objFree (o : String) (r : List Entry) : Prop :=
  ∀ e ∈ r, pObj o e = false

theorem descend_refl {r : List Entry} : Descend r r :=
  fun e' he' => ⟨e', he', Eq.refl _, Eq.refl _⟩

theorem descend_trans {r₁ r₂ r₃ : List Entry} (h₁ : Descend r₁ r₂)
    (h₂ : Descend r₂ r₃) : Descend r₁ r₃ := by
  intro e' he'
  obtain ⟨e₂, he₂, hr, ho⟩ := h₂ e' he'
  obtain ⟨e₁, he₁, hr', ho'⟩ := h₁ e₂ he₂
  exact ⟨e₁, he₁, hr.trans hr', ho.trans ho'⟩

theorem pObj_congr {o : String} {e e' : Entry} (hr : e'.remarks = e.remarks)
    (ho : e'.obj = e.obj) : pObj o e' = pObj o e := by
  unfold pObj unifiedLookup
  rw [hr, ho]
  cases rget e.remarks "object" <;> simp

theorem objFree_of_descend {o : String} {r r' : List Entry}
    (hd : Descend r r') (hf : objFree o r) : objFree o r' := by
  intro e' he'
  obtain ⟨e, he, hr, ho⟩ := hd e' he'
  rw [pObj_congr hr ho]
  exact hf e he

theorem noShadow_of_descend {r r' : List Entry} (hd : Descend r r')
    (hn : NoShadow r) : NoShadow r' := by
  intro e' he'
  obtain ⟨e, he, hr, _⟩ := hd e' he'
  rw [hr]
  exact hn e he

theorem pObj_of_noShadow {o : String} {e : Entry}
    (h : "object" ∉ keys e.remarks) : pObj o e = decide (e.obj = o) := by
  unfold pObj unifiedLookup
  rw [rget_eq_none_of_not_mem_keys h]
  simp

/-! ### Renumbering and index erasure -/

theorem renumberFrom_nil (s : Int) (u : Bool) (i : Nat) (l : List Entry) :
    renumberFrom [] s u i l = l := by
  induction l generalizing i with
  | nil => rfl
  | cons x t ih => simp [renumberFrom, ih]

theorem renumberFrom_descend (idxs : List Nat) (s : Int) (u : Bool)
    (i : Nat) (l : List Entry) : Descend l (renumberFrom idxs s u i l) := by
  induction l generalizing i with
  | nil => intro e' he'
           simp [renumberFrom] at he'
  | cons x t ih =>
      intro e' he'
      simp only [renumberFrom, List.mem_cons] at he'
      rcases he' with he' | he'
      · subst he'
        split
        · exact ⟨x, by simp, rfl, rfl⟩
        · exact ⟨x, by simp, rfl, rfl⟩
      · obtain ⟨e, he, hr, ho⟩ := ih (i + 1) e' he'
        exact ⟨e, by simp [he], hr, ho⟩

theorem posListFrom_renumberFrom (p : Entry → Bool)
    (hp : ∀ (x : Entry) (st : Int), p { x with state := st } = p x)
    (idxs : List Nat) (s : Int) (u : Bool) :
    ∀ (l : List Entry) (k i : Nat),
      posListFrom p k (renumberFrom idxs s u i l) = posListFrom p k l := by
  intro l
  induction l with
  | nil => intro k i
           rfl
  | cons x t ih =>
      intro k i
      show posListFrom p k (_ :: renumberFrom idxs s u (i + 1) t) = _
      have hx : p (if i ∈ idxs ∧ u = true ∧ s < x.state
          then { x with state := x.state - 1 } else x) = p x := by
        split
        · exact hp x (x.state - 1)
        · rfl
      by_cases hpx : p x
      · simp [posListFrom, hx, hpx, ih]
      · simp [posListFrom, hx, hpx, ih]

theorem getElem?_split {l : List Entry} {n : Nat} {e : Entry}
    (h : l[n]? = some e) :
    ∃ l₁ l₂, l = l₁ ++ e :: l₂ ∧ l₁.length = n ∧ l.eraseIdx n = l₁ ++ l₂ := by
  induction n generalizing l with
  | zero =>
      cases l with
      | nil => simp at h
      | cons x t =>
          simp only [List.getElem?_cons_zero, Option.some.injEq] at h
          exact ⟨[], t, by simp [h], rfl, rfl⟩
  | succ n ih =>
      cases l with
      | nil => simp at h
      | cons x t =>
          simp only [List.getElem?_cons_succ] at h
          obtain ⟨l₁, l₂, hl, hlen, he⟩ := ih h
          exact ⟨x :: l₁, l₂, by simp [hl], by simp [hlen],
            by simp [List.eraseIdx_cons_succ, he]⟩

theorem posListFrom_nil_shift {p : Entry → Bool} {k : Nat} {l : List Entry}
    (h : posListFrom p (k + 1) l = []) : posListFrom p k l = [] :=
  posListFrom_eq_nil_iff.mpr (posListFrom_eq_nil_iff.mp h)

theorem posListFrom_eraseIdx_last {p : Entry → Bool} :
    ∀ (l : List Entry) (k : Nat) (init : List Nat) (j : Nat),
      posListFrom p k l = init ++ [j] →
      posListFrom p k (l.eraseIdx (j - k)) = init := by
  intro l
  induction l with
  | nil => intro k init j h
           simp [posListFrom] at h
  | cons x t ih =>
      intro k init j h
      by_cases hpx : p x
      · rw [posListFrom, if_pos hpx] at h
        cases init with
        | nil =>
            simp only [List.nil_append, List.cons.injEq] at h
            obtain ⟨hk, ht⟩ := h
            subst hk
            simp only [Nat.sub_self, List.eraseIdx_cons_zero]
            exact posListFrom_nil_shift ht
        | cons i0 init' =>
            simp only [List.cons_append, List.cons.injEq] at h
            obtain ⟨hk, ht⟩ := h
            subst hk
            have hj : k + 1 ≤ j := by
              have : j ∈ posListFrom p (k + 1) t := by
                rw [ht]
                simp
              exact posListFrom_ge this
            have hsub : j - k = (j - (k + 1)) + 1 := by omega
            rw [hsub, List.eraseIdx_cons_succ, posListFrom, if_pos hpx,
              ih (k + 1) init' j ht]
      · rw [posListFrom, if_neg hpx] at h
        have hj : k + 1 ≤ j := by
          have : j ∈ posListFrom p (k + 1) t := by
            rw [h]
            simp
          exact posListFrom_ge this
        have hsub : j - k = (j - (k + 1)) + 1 := by omega
        rw [hsub, List.eraseIdx_cons_succ, posListFrom, if_neg hpx,
          ih (k + 1) init j h]

/-! ### Specification of one `remove_ndx` step inside a batch removal -/

theorem pObj_state_inv (o : String) (x : Entry) (st : Int) :
    pObj o { x with state := st } = pObj o x := by
  unfold pObj unifiedLookup
  cases rget x.remarks "object" <;> simp

theorem posListFrom_mem_zero {p : Entry → Bool} {x : Nat} {l : List Entry} :
    x ∈ posListFrom p 0 l ↔ ∃ h : x < l.length, p (l.get ⟨x, h⟩) = true := by
  rw [posListFrom_mem]
  constructor
  · rintro ⟨j, hj, hx, hp⟩
    have hjx : j = x := by omega
    subst hjx
    exact ⟨hj, hp⟩
  · rintro ⟨hx, hp⟩
    exact ⟨x, hx, by omega, hp⟩

theorem remove_ndx_step {o : String} {h : List String} {r : List Entry}
    {init : List Nat} {j : Nat}
    (hpos : posListFrom (pObj o) 0 r = init ++ [j]) :
    ∃ h' r', remove_ndx h r j true = .ok (h', r')
      ∧ posListFrom (pObj o) 0 r' = init
      ∧ Descend r r'
      ∧ (∀ x, x ∈ h' → x ∈ h)
      ∧ (∀ x, x ∈ h → x ∉ h' → objFree x r')
      ∧ ((∀ e' ∈ r, pObj o e' = true → e'.obj ∉ h) → h' = h) := by
  have hjmem : j ∈ posListFrom (pObj o) 0 r := by
    rw [hpos]
    simp
  obtain ⟨hjlt, hpj⟩ := posListFrom_mem_zero.mp hjmem
  have hsome : r[j]? = some (r.get ⟨j, hjlt⟩) := by
    simp [List.getElem?_eq_getElem hjlt]
  set e := r.get ⟨j, hjlt⟩ with hedef
  have hemem : e ∈ r := List.get_mem r j hjlt
  have herase : posListFrom (pObj o) 0 (r.eraseIdx j) = init := by
    have := posListFrom_eraseIdx_last (p := pObj o) r 0 init j (by simpa using hpos)
    simpa using this
  by_cases hh : e.obj ∈ h
  · have heval : remove_ndx h r j true =
        .ok ((if (posListFrom (pObj e.obj) 0 (r.eraseIdx j)).isEmpty
            then h.erase e.obj else h),
          renumberFrom (posListFrom (pObj e.obj) 0 (r.eraseIdx j))
            e.state true 0 (r.eraseIdx j)) := by
      unfold remove_ndx
      rw [hsome]
      simp only [← hedef, if_pos hh, findall_obj]
    refine ⟨_, _, heval, ?_, ?_, ?_, ?_, ?_⟩
    · rw [posListFrom_renumberFrom (pObj o) (pObj_state_inv o) _ _ _]
      exact herase
    · exact descend_trans
        (fun e' he' => ⟨e', (List.eraseIdx_sublist r j).subset he', Eq.refl _, Eq.refl _⟩)
        (renumberFrom_descend _ _ _ 0 _)
    · intro x hx
      split at hx
      · exact List.erase_subset _ _ hx
      · exact hx
    · intro x hxh hxh'
      split at hxh'
      · next hempty =>
          have hxe : x = e.obj := by
            by_contra hne
            exact hxh' ((List.mem_erase_of_ne hne).mpr hxh)
          subst hxe
          have hfree : objFree e.obj (r.eraseIdx j) := by
            intro e'' he''
            exact posListFrom_eq_nil_iff.mp
              (by simpa using List.isEmpty_iff.mp hempty) e'' he''
          exact objFree_of_descend (renumberFrom_descend _ _ _ 0 _) hfree
      · exact absurd hxh hxh'
    · intro hside
      exact absurd hh (hside e hemem hpj)
  · refine ⟨h, r.eraseIdx j, ?_, herase, ?_, fun x hx => hx, ?_, fun _ => rfl⟩
    · unfold remove_ndx
      rw [hsome]
      simp only [← hedef, if_neg hh]
    · exact fun e' he' => ⟨e', (List.eraseIdx_sublist r j).subset he', Eq.refl _, Eq.refl _⟩
    · intro x hxh hxh'
      exact absurd hxh hxh'

/-- Folding `remove_ndx` over the descending matched positions: the result
is error-free, survivors are originals up to state, no match survives, the
host only shrinks, and every host object that disappears has no surviving
match either. -/
theorem removeFold_spec {o : String} :
    ∀ (asc : List Nat) (h : List String) (r : List Entry),
      posListFrom (pObj o) 0 r = asc →
      ∃ h' r',
        asc.reverse.foldlM (fun st n => remove_ndx st.1 st.2 n true)
          ((h, r) : List String × List Entry) = .ok (h', r')
        ∧ objFree o r'
        ∧ Descend r r'
        ∧ (∀ x, x ∈ h' → x ∈ h)
        ∧ (∀ x, x ∈ h → x ∉ h' → objFree x r')
        ∧ ((∀ e' ∈ r, pObj o e' = true → e'.obj ∉ h) → h' = h) := by
  intro asc
  induction asc using List.reverseRecOn with
  | nil =>
      intro h r hpos
      refine ⟨h, r, rfl, ?_, descend_refl, fun x hx => hx,
        fun x hxh hxh' => absurd hxh hxh', fun _ => rfl⟩
      exact posListFrom_eq_nil_iff.mp hpos
  | append_singleton init j ih =>
      intro h r hpos
      obtain ⟨h₁, r₁, hstep, hpos₁, hd₁, hsub₁, hgone₁, hside₁⟩ :=
        remove_ndx_step (o := o) (h := h) (r := r) hpos
      obtain ⟨h', r', hfold, hfree, hd₂, hsub₂, hgone₂, hside₂⟩ :=
        ih h₁ r₁ hpos₁
      refine ⟨h', r', ?_, hfree, descend_trans hd₁ hd₂, ?_, ?_, ?_⟩
      · rw [List.reverse_append, List.reverse_singleton, List.singleton_append,
          List.foldlM_cons, hstep]
        exact hfold
      · exact fun x hx => hsub₁ x (hsub₂ x hx)
      · intro x hxh hxh'
        by_cases hx₁ : x ∈ h₁
        · exact hgone₂ x hx₁ hxh'
        · exact objFree_of_descend hd₂ (hgone₁ x hxh hx₁)
      · intro hside
        have hh₁ : h₁ = h := hside₁ hside
        subst hh₁
        refine hside₂ ?_
        intro e' he' hpe'
        obtain ⟨e, he, hr, ho⟩ := hd₁ e' he'
        rw [pObj_congr hr ho] at hpe'
        rw [ho]
        exact hside e he hpe'

/-- `Docked.remove` on an `object=o` criterion. -/
theorem removeMatching_obj_spec (h : List String) (r : List Entry)
    (o : String) :
    ∃ h' r', removeMatching h r true [("object", .vStr o)] = .ok (h', r')
      ∧ objFree o r'
      ∧ Descend r r'
      ∧ (∀ x, x ∈ h' → x ∈ h)
      ∧ (∀ x, x ∈ h → x ∉ h' → objFree x r')
      ∧ ((∀ e' ∈ r, pObj o e' = true → e'.obj ∉ h) → h' = h) := by
  obtain ⟨h', r', hfold, hrest⟩ :=
    removeFold_spec (o := o) (posListFrom (pObj o) 0 r) h r rfl
  refine ⟨h', r', ?_, hrest⟩
  unfold removeMatching
  rw [findall_obj]
  show ((sortDesc (posListFrom (pObj o) 0 r)).foldlM _ _ : Except Err _) = _
  rw [sortDesc_of_pairwise (posListFrom_pairwise (pObj o) 0 r)]
  exact hfold

/-- A removal targeting an object with no unified-dict match is a no-op. -/
theorem removeMatching_id (h : List String) (r : List Entry) (o : String)
    (hf : objFree o r) :
    removeMatching h r true [("object", .vStr o)] = .ok (h, r) := by
  unfold removeMatching
  rw [findall_obj]
  have : posListFrom (pObj o) 0 r = [] := posListFrom_eq_nil_iff.mpr hf
  rw [this]
  rfl

/-! ### Pruning and equalization -/

theorem mem_objectsList {o : String} {l : List Entry} :
    o ∈ objectsList l ↔ ∃ e ∈ l, e.obj = o := by
  unfold objectsList
  rw [List.mem_dedup, List.mem_map]

theorem mem_remarksUnion {k : String} {l : List Entry} :
    k ∈ remarksUnion l ↔ ∃ e ∈ l, k ∈ keys e.remarks := by
  unfold remarksUnion
  rw [List.mem_dedup]
  induction l with
  | nil => simp
  | cons e t ih => simp [ih]

/-- The pruning fold of `remove_without_objects` over an arbitrary list of
object names. -/
theorem rwoFold_spec :
    ∀ (gs : List String) (h : List String) (r : List Entry),
      ∃ h' r',
        gs.foldlM
          (fun st o => removeMatching st.1 st.2 true [("object", .vStr o)])
          ((h, r) : List String × List Entry) = .ok (h', r')
        ∧ Descend r r'
        ∧ (∀ o ∈ gs, objFree o r')
        ∧ (∀ x, x ∈ h' → x ∈ h)
        ∧ (∀ x, x ∈ h → x ∉ h' → objFree x r')
        ∧ (NoShadow r → (∀ o ∈ gs, o ∉ h) → h' = h) := by
  intro gs
  induction gs with
  | nil =>
      intro h r
      exact ⟨h, r, rfl, descend_refl, by simp, fun x hx => hx,
        fun x hxh hxh' => absurd hxh hxh', fun _ _ => rfl⟩
  | cons o gs ih =>
      intro h r
      obtain ⟨h₁, r₁, hstep, hfree₁, hd₁, hsub₁, hgone₁, hside₁⟩ :=
        removeMatching_obj_spec h r o
      obtain ⟨h', r', hfold, hd₂, hfree₂, hsub₂, hgone₂, hside₂⟩ :=
        ih h₁ r₁
      refine ⟨h', r', ?_, descend_trans hd₁ hd₂, ?_, ?_, ?_, ?_⟩
      · rw [List.foldlM_cons, hstep]
        exact hfold
      · intro o' ho'
        rcases List.mem_cons.mp ho' with ho' | ho'
        · subst ho'
          exact objFree_of_descend hd₂ hfree₁
        · exact hfree₂ o' ho'
      · exact fun x hx => hsub₁ x (hsub₂ x hx)
      · intro x hxh hxh'
        by_cases hx₁ : x ∈ h₁
        · exact hgone₂ x hx₁ hxh'
        · exact objFree_of_descend hd₂ (hgone₁ x hxh hx₁)
      · intro hns hgs
        have hh₁ : h₁ = h := by
          refine hside₁ ?_
          intro e' he' hpe'
          rw [pObj_of_noShadow (hns e' he')] at hpe'
          have : e'.obj = o := by simpa using hpe'
          rw [this]
          exact hgs o (by simp)
        subst hh₁
        exact hside₂ (noShadow_of_descend hd₁ hns)
          fun o' ho' => hgs o' (by simp [ho'])

/-- `Docked.remove_without_objects`. -/
theorem rwo_spec (h : List String) (r : List Entry) :
    ∃ h' r', remove_without_objects h r = .ok (h', r')
      ∧ Descend r r'
      ∧ (∀ o, o ∈ objectsList r → o ∉ h → objFree o r')
      ∧ (∀ x, x ∈ h' → x ∈ h)
      ∧ (∀ x, x ∈ h → x ∉ h' → objFree x r')
      ∧ (NoShadow r → h' = h) := by
  obtain ⟨h', r', hfold, hd, hfree, hsub, hgone, hside⟩ :=
    rwoFold_spec ((objectsList r).filter (fun o => !h.contains o)) h r
  refine ⟨h', r', hfold, hd, ?_, hsub, hgone, fun hns => hside hns ?_⟩
  · intro o ho hoh
    exact hfree o (by simp [List.mem_filter, ho, hoh])
  · intro o ho
    simp only [List.mem_filter, Bool.not_eq_true'] at ho
    simpa using ho.2

/-- Identity case of the pruning fold: when no listed object has a
surviving unified-dict match, nothing changes. -/
theorem rwoFold_id (gs : List String) (h : List String) (r : List Entry)
    (hf : ∀ o ∈ gs, objFree o r) :
    gs.foldlM
      (fun st o => removeMatching st.1 st.2 true [("object", .vStr o)])
      ((h, r) : List String × List Entry) = .ok (h, r) := by
  induction gs with
  | nil => rfl
  | cons o gs ih =>
      rw [List.foldlM_cons, removeMatching_id h r o (hf o (by simp))]
      exact ih fun o' ho' => hf o' (by simp [ho'])

/-- Destructure a successful `equalize_remarks` run into its pruning result
and the back-fill map over it. -/
theorem equalize_eq {h : List String} {r : List Entry} {h₁ : List String}
    {r₁ : List Entry} (he : equalize_remarks h r = .ok (h₁, r₁)) :
    ∃ pr, remove_without_objects h r = .ok (h₁, pr)
      ∧ r₁ = pr.map
          (fun e => { e with remarks := backfill e.remarks (remarksUnion pr) }) := by
  unfold equalize_remarks at he
  cases hr : remove_without_objects h r with
  | error er =>
      rw [hr] at he
      cases he
  | ok st =>
      obtain ⟨h', pr⟩ := st
      rw [hr] at he
      have he' : (Except.ok (h', pr.map
          (fun e => { e with remarks := backfill e.remarks (remarksUnion pr) }))
          : Except Err (List String × List Entry)) = .ok (h₁, r₁) := he
      injection he' with hpair
      rw [Prod.ext_iff] at hpair
      obtain ⟨hh, hrr⟩ := hpair
      simp only at hh hrr
      refine ⟨pr, ?_, hrr.symm⟩
      rw [← hh]

theorem pObj_backfill (o : String) (e : Entry) (ks : List String) :
    pObj o { e with remarks := backfill e.remarks ks } = pObj o e
    ∨ pObj o { e with remarks := backfill e.remarks ks } = false := by
  unfold pObj unifiedLookup
  simp only
  rw [rget_backfill]
  cases hr : rget e.remarks "object" with
  | some v => left
              rfl
  | none =>
      by_cases hk : "object" ∈ ks
      · right
        simp [hk]
      · left
        simp [hk]

theorem objFree_backfill {o : String} {l : List Entry} (ks : List String)
    (hf : objFree o l) :
    objFree o (l.map (fun e => { e with remarks := backfill e.remarks ks })) := by
  intro e' he'
  obtain ⟨e, he, hbe⟩ := List.mem_map.mp he'
  subst hbe
  rcases pObj_backfill o e ks with hcase | hcase
  · rw [hcase]
    exact hf e he
  · exact hcase

theorem objectsList_map_backfill (l : List Entry) (ks : List String) :
    objectsList
      (l.map (fun e => { e with remarks := backfill e.remarks ks })) =
      objectsList l := by
  unfold objectsList
  rw [List.map_map]
  rfl

/-- Remark-key set of an entry. -/
def keyFinset (e : Entry) : Finset String := (keys e.remarks).toFinset

/-- Union of the remark-key sets over all entries. -/
def unionFinset (l : List Entry) : Finset String :=
  l.foldr (fun e acc => keyFinset e ∪ acc) ∅

theorem mem_keyFinset {k : String} {e : Entry} :
    k ∈ keyFinset e ↔ k ∈ keys e.remarks := by
  simp [keyFinset]

theorem mem_unionFinset {k : String} {l : List Entry} :
    k ∈ unionFinset l ↔ ∃ e ∈ l, k ∈ keyFinset e := by
  induction l with
  | nil => simp [unionFinset]
  | cons e t ih =>
      show k ∈ keyFinset e ∪ unionFinset t ↔ _
      simp [ih]

/-- After `equalize_remarks`, every entry holds every key of the key union,
so every entry carries the whole (common) key set. -/
theorem equalize_keys_full {h : List String} {r : List Entry}
    {h₁ : List String} {r₁ : List Entry}
    (he : equalize_remarks h r = .ok (h₁, r₁)) :
    ∀ e ∈ r₁, ∀ k ∈ remarksUnion r₁, k ∈ keys e.remarks := by
  obtain ⟨pr, _, hmap⟩ := equalize_eq he
  subst hmap
  intro e he' k hk
  obtain ⟨e', he'm, hk'⟩ := mem_remarksUnion.mp hk
  obtain ⟨e₀', he₀', hbe'⟩ := List.mem_map.mp he'm
  obtain ⟨e₀, he₀, hbe⟩ := List.mem_map.mp he'
  subst hbe
  have hkU : k ∈ remarksUnion pr := by
    subst hbe'
    rcases (mem_keys_backfill _ _ _).mp hk' with hk' | hk'
    · exact mem_remarksUnion.mpr ⟨e₀', he₀', hk'⟩
    · exact hk'
  exact (mem_keys_backfill _ _ _).mpr (Or.inr hkU)

/-- After `equalize_remarks`, every surviving object name that is no longer
on the host has no unified-dict match left. -/
theorem equalize_gone_free {h : List String} {r : List Entry}
    {h₁ : List String} {r₁ : List Entry}
    (he : equalize_remarks h r = .ok (h₁, r₁)) :
    ∀ o, o ∈ objectsList r₁ → o ∉ h₁ → objFree o r₁ := by
  obtain ⟨pr, hrwo, hmap⟩ := equalize_eq he
  obtain ⟨h₂', pr', hfold, hd, hfree, hsub, hgone, _⟩ := rwo_spec h r
  rw [hrwo] at hfold
  injection hfold with hpair
  rw [Prod.ext_iff] at hpair
  obtain ⟨hh', hpr'⟩ := hpair
  simp only at hh' hpr'
  subst hh'
  subst hpr'
  intro o ho hoh
  rw [hmap, objectsList_map_backfill] at ho
  have hfreepr : objFree o pr := by
    by_cases hoh0 : o ∈ h
    · exact hgone o hoh0 hoh
    · refine hfree o ?_ hoh0
      obtain ⟨e, hem, heo⟩ := mem_objectsList.mp ho
      obtain ⟨e₀, he₀, _, ho₀⟩ := hd e hem
      exact mem_objectsList.mpr ⟨e₀, he₀, by rw [← ho₀, heo]⟩
  rw [hmap]
  exact objFree_backfill _ hfreepr

/-- `equalize_remarks` is a fixed point on its own output: the second call
prunes nothing and back-fills nothing. -/
theorem equalize_fix {h : List String} {r : List Entry}
    {h₁ : List String} {r₁ : List Entry}
    (he : equalize_remarks h r = .ok (h₁, r₁)) :
    equalize_remarks h₁ r₁ = .ok (h₁, r₁) := by
  have hfull := equalize_keys_full he
  have hfree := equalize_gone_free he
  have hrwo₂ : remove_without_objects h₁ r₁ = .ok (h₁, r₁) := by
    unfold remove_without_objects
    refine rwoFold_id _ _ _ ?_
    intro o ho
    simp only [List.mem_filter, Bool.not_eq_true'] at ho
    refine hfree o ho.1 ?_
    simpa using ho.2
  have hmapid : r₁.map
      (fun e => { e with remarks := backfill e.remarks (remarksUnion r₁) })
      = r₁ := by
    have hcongr : ∀ e ∈ r₁,
        ({ e with remarks := backfill e.remarks (remarksUnion r₁) } : Entry)
          = e := by
      intro e he'
      have : backfill e.remarks (remarksUnion r₁) = e.remarks :=
        backfill_id _ _ (fun k hk => hfull e he' k hk)
      rw [this]
    calc r₁.map (fun e =>
            { e with remarks := backfill e.remarks (remarksUnion r₁) })
        = r₁.map id := List.map_congr_left hcongr
      _ = r₁ := List.map_id r₁
  unfold equalize_remarks
  rw [hrwo₂]
  show Except.ok (h₁, r₁.map _) = _
  rw [hmapid]

/-! ### State contiguity after removal -/

/-- States recorded for one internal object, in entry order. -/
def statesOf (entries : List Entry) (o : String) : List Int :=
  (entries.filter (fun e => e.obj == o)).map (·.state)

/-- The contiguous state block `[1, ..., n]`. -/
def oneTo (n : Nat) : List Int :=
  List.map (fun i : Nat => (i : Int) + 1) (List.range n)

/-- State adjustment applied by `remove_ndx` to a sibling state. -/
def decState (s t : Int) : Int := if s < t then t - 1 else t

theorem oneTo_succ (n : Nat) :
    oneTo (n + 1) = oneTo n ++ [(n : Int) + 1] := by
  simp [oneTo, List.range_succ]

theorem mem_oneTo {s : Int} {n : Nat} :
    s ∈ oneTo n ↔ 1 ≤ s ∧ s ≤ (n : Int) := by
  constructor
  · intro h
    obtain ⟨i, hi, hs⟩ := List.mem_map.mp h
    have hi' : i < n := List.mem_range.mp hi
    omega
  · intro h
    exact List.mem_map.mpr
      ⟨(s - 1).toNat, List.mem_range.mpr (by omega), by omega⟩

theorem erase_oneTo_map_decState :
    ∀ (n : Nat) (s : Int), 1 ≤ s → s ≤ (n : Int) →
      ((oneTo n).erase s).map (decState s) = oneTo (n - 1) := by
  intro n
  induction n with
  | zero => intro s h1 h2
            omega
  | succ n ih =>
      intro s h1 h2
      rw [oneTo_succ]
      by_cases hs : s ≤ (n : Int)
      · have hmem : s ∈ oneTo n := mem_oneTo.mpr ⟨h1, hs⟩
        rw [List.erase_append_left _ hmem, List.map_append,
          ih s h1 hs]
        have hN1 : 1 ≤ n := by omega
        obtain ⟨m, rfl⟩ : ∃ m, n = m + 1 := ⟨n - 1, by omega⟩
        simp only [Nat.add_sub_cancel]
        rw [oneTo_succ m]
        simp only [List.map_cons, List.map_nil]
        push_cast
        push_cast at hs
        have hdec : decState s ((↑m : Int) + 1 + 1) = (↑m : Int) + 1 := by
          unfold decState
          rw [if_pos (by omega)]
          omega
        rw [hdec]
      · have hsn : s = (n : Int) + 1 := by omega
        subst hsn
        have hnot : ((n : Int) + 1) ∉ oneTo n := fun hc => by
          have := mem_oneTo.mp hc
          omega
        rw [List.erase_append_right _ hnot]
        simp only [List.erase_cons_head, List.append_nil]
        have : ∀ t ∈ oneTo n, decState ((n : Int) + 1) t = t := by
          intro t ht
          have := mem_oneTo.mp ht
          unfold decState
          rw [if_neg (by omega)]
        calc (oneTo n).map (decState ((n : Int) + 1))
            = (oneTo n).map id := List.map_congr_left this
          _ = oneTo n := List.map_id _
          _ = oneTo (n + 1 - 1) := by simp

theorem renumberFrom_eq_map {p : Entry → Bool} {idxs : List Nat} {s : Int} :
    ∀ (l : List Entry) (k : Nat),
      (∀ j (hj : j < l.length),
        (k + j ∈ idxs ↔ p (l.get ⟨j, hj⟩) = true)) →
      renumberFrom idxs s true k l =
        l.map (fun x => if p x = true ∧ s < x.state
          then { x with state := x.state - 1 } else x) := by
  intro l
  induction l with
  | nil => intro k _
           rfl
  | cons x t ih =>
      intro k H
      have h0 : k ∈ idxs ↔ p x = true := by
        have h00 := H 0 (by simp)
        simpa using h00
      have hcond : (k ∈ idxs ∧ true = true ∧ s < x.state) ↔
          (p x = true ∧ s < x.state) := by
        rw [h0]
        simp
      have htail : renumberFrom idxs s true (k + 1) t =
          t.map (fun x => if p x = true ∧ s < x.state
            then { x with state := x.state - 1 } else x) := by
        refine ih (k + 1) ?_
        intro j hj
        have hH := H (j + 1) (by simpa using hj)
        have harith : k + (j + 1) = k + 1 + j := by omega
        rw [harith] at hH
        simpa using hH
      show (if k ∈ idxs ∧ true = true ∧ s < x.state
          then { x with state := x.state - 1 } else x)
          :: renumberFrom idxs s true (k + 1) t = _
      rw [List.map_cons, if_congr hcond rfl rfl, htail]

theorem filter_map_obj_preserving {f : Entry → Entry}
    (hf : ∀ x, (f x).obj = x.obj) (l : List Entry) (o : String) :
    (l.map f).filter (fun e => e.obj == o) =
      (l.filter (fun e => e.obj == o)).map f := by
  induction l with
  | nil => rfl
  | cons x t ih =>
      by_cases hx : x.obj == o
      · simp [List.filter_cons, hf, hx, ih]
      · simp [List.filter_cons, hf, hx, ih]

theorem statesOf_append (l₁ l₂ : List Entry) (o : String) :
    statesOf (l₁ ++ l₂) o = statesOf l₁ o ++ statesOf l₂ o := by
  simp [statesOf, List.filter_append]

theorem statesOf_cons_self (e : Entry) (l : List Entry) :
    statesOf (e :: l) e.obj = e.state :: statesOf l e.obj := by
  simp [statesOf, List.filter_cons]

theorem statesOf_map_dec (l : List Entry) (o : String) (s : Int) :
    statesOf (l.map (fun x => if x.obj = o ∧ s < x.state
        then { x with state := x.state - 1 } else x)) o
      = (statesOf l o).map (decState s) := by
  have hf : ∀ x : Entry, ((fun x => if x.obj = o ∧ s < x.state
      then { x with state := x.state - 1 } else x) x).obj = x.obj := by
    intro x
    by_cases hx : x.obj = o ∧ s < x.state <;> simp [hx]
  unfold statesOf
  rw [filter_map_obj_preserving hf, List.map_map, List.map_map]
  refine List.map_congr_left ?_
  intro x hx
  have hxo : x.obj = o := by
    have := (List.mem_filter.mp hx).2
    simpa using this
  show (if x.obj = o ∧ s < x.state
      then { x with state := x.state - 1 } else x).state = decState s x.state
  by_cases hlt : s < x.state
  · rw [if_pos ⟨hxo, hlt⟩]
    unfold decState
    rw [if_pos hlt]
  · rw [if_neg (by tauto)]
    unfold decState
    rw [if_neg hlt]

/-- C1 (amended): when no entry shadows the internal object field with an
`object` remark and the removed entry's object is still known to the host,
`remove_ndx` with `update` turns a contiguous block `1..N` of states for
that object into exactly `1..N-1`. -/
theorem remove_ndx_renumber_contiguous
    (host : List String) (entries : List Entry) (ndx : Nat) (e : Entry)
    (N : Nat)
    (hns : NoShadow entries)
    (hnd : entries[ndx]? = some e)
    (hh : e.obj ∈ host)
    (hst : (statesOf entries e.obj).Perm (oneTo N)) :
    ∃ h' r', remove_ndx host entries ndx true = .ok (h', r')
      ∧ (statesOf r' e.obj).Perm (oneTo (N - 1)) := by
  have heval : remove_ndx host entries ndx true =
      .ok ((if (posListFrom (pObj e.obj) 0 (entries.eraseIdx ndx)).isEmpty
          then host.erase e.obj else host),
        renumberFrom (posListFrom (pObj e.obj) 0 (entries.eraseIdx ndx))
          e.state true 0 (entries.eraseIdx ndx)) := by
    unfold remove_ndx
    rw [hnd]
    simp only [if_pos hh, findall_obj]
  refine ⟨_, _, heval, ?_⟩
  have hns' : NoShadow (entries.eraseIdx ndx) :=
    noShadow_of_descend
      (fun e' he' => ⟨e', (List.eraseIdx_sublist entries ndx).subset he',
        Eq.refl _, Eq.refl _⟩) hns
  have hmap : renumberFrom (posListFrom (pObj e.obj) 0 (entries.eraseIdx ndx))
      e.state true 0 (entries.eraseIdx ndx) =
      (entries.eraseIdx ndx).map (fun x => if pObj e.obj x = true ∧ e.state < x.state
        then { x with state := x.state - 1 } else x) := by
    refine renumberFrom_eq_map (entries.eraseIdx ndx) 0 ?_
    intro j hj
    rw [Nat.zero_add, posListFrom_mem_zero]
    constructor
    · rintro ⟨hj', hp⟩
      exact hp
    · intro hp
      exact ⟨hj, hp⟩
  have hcong : (entries.eraseIdx ndx).map
      (fun x => if pObj e.obj x = true ∧ e.state < x.state
        then { x with state := x.state - 1 } else x) =
      (entries.eraseIdx ndx).map
      (fun x => if x.obj = e.obj ∧ e.state < x.state
        then { x with state := x.state - 1 } else x) := by
    refine List.map_congr_left ?_
    intro x hx
    have hcondx : (pObj e.obj x = true ∧ e.state < x.state) ↔
        (x.obj = e.obj ∧ e.state < x.state) := by
      rw [pObj_of_noShadow (hns' x hx)]
      simp
    rw [if_congr hcondx rfl rfl]
  rw [hmap, hcong, statesOf_map_dec]
  obtain ⟨l₁, l₂, hsplit, hlen, herase⟩ := getElem?_split hnd
  have hSo : statesOf entries e.obj =
      statesOf l₁ e.obj ++ e.state :: statesOf l₂ e.obj := by
    rw [hsplit, statesOf_append, statesOf_cons_self]
  have hSo' : statesOf (entries.eraseIdx ndx) e.obj =
      statesOf l₁ e.obj ++ statesOf l₂ e.obj := by
    rw [herase, statesOf_append]
  have hperm1 : (e.state :: statesOf (entries.eraseIdx ndx) e.obj).Perm
      (oneTo N) := by
    rw [hSo']
    refine List.Perm.trans ?_ hst
    rw [hSo]
    exact List.perm_middle.symm
  obtain ⟨hsmem, hpermX⟩ := (List.cons_perm_iff_perm_erase).mp hperm1
  obtain ⟨hs1, hs2⟩ := mem_oneTo.mp hsmem
  have hfinal : ((statesOf (entries.eraseIdx ndx) e.obj).map
      (decState e.state)).Perm
      (((oneTo N).erase e.state).map (decState e.state)) := hpermX.map _
  rw [erase_oneTo_map_decState N e.state hs1 hs2] at hfinal
  exact hfinal

/-! ### `find` versus `findall` -/

theorem findallGo_sorted {matchAll : Bool} {criteria : List (String × Value)} :
    ∀ {l : List Entry} {n : Nat} {out : List Nat},
      findallGo matchAll criteria l n = .ok out →
      (∀ x ∈ out, n ≤ x) ∧ out.Pairwise (· < ·) := by
  intro l
  induction l with
  | nil =>
      intro n out h
      unfold findallGo at h
      simp only [Except.ok.injEq] at h
      subst h
      simp
  | cons e t ih =>
      intro n out h
      unfold findallGo at h
      cases hb : (if matchAll then evalAll else evalAny) e criteria with
      | error er =>
          rw [hb] at h
          cases h
      | ok b =>
          rw [hb] at h
          cases hrest : findallGo matchAll criteria t (n + 1) with
          | error er =>
              rw [hrest] at h
              cases h
          | ok rest =>
              rw [hrest] at h
              have h2 : (if b then n :: rest else rest) = out := by
                have h' : (Except.ok (if b then n :: rest else rest)
                    : Except Err (List Nat)) = .ok out := h
                injection h'
              obtain ⟨hge, hpair⟩ := ih hrest
              cases b with
              | true =>
                  rw [if_pos rfl] at h2
                  subst h2
                  constructor
                  · intro x hx
                    rcases List.mem_cons.mp hx with hx | hx
                    · omega
                    · have := hge x hx
                      omega
                  · refine List.Pairwise.cons ?_ hpair
                    intro x hx
                    have := hge x hx
                    omega
              | false =>
                  rw [if_neg (by simp)] at h2
                  subst h2
                  exact ⟨fun x hx => by have := hge x hx
                                        omega, hpair⟩

/-- C7: `find` returns the head of `findall` under the same criteria, `None`
exactly when there is no match, and that head is the minimum index. -/
theorem find_first_lowest (entries : List Entry) (matchAll : Bool)
    (criteria : List (String × Value)) (l : List Nat)
    (h : findall entries matchAll criteria = .ok l) :
    find entries matchAll criteria = .ok l.head?
    ∧ (l = [] → find entries matchAll criteria = .ok none)
    ∧ (∀ m, l.head? = some m → m ∈ l ∧ ∀ x ∈ l, m ≤ x) := by
  have hfind : find entries matchAll criteria = .ok l.head? := by
    unfold find
    rw [h]
  refine ⟨hfind, ?_, ?_⟩
  · intro hl
    subst hl
    exact hfind
  · intro m hm
    have hsorted : l.Pairwise (· < ·) := by
      unfold findall at h
      split at h
      · cases h
      · exact (findallGo_sorted h).2
    cases l with
    | nil => cases hm
    | cons m0 t =>
        simp only [List.head?_cons, Option.some.injEq] at hm
        subst hm
        refine ⟨by simp, ?_⟩
        intro x hx
        rcases List.mem_cons.mp hx with hx | hx
        · omega
        · have := (List.pairwise_cons.mp hsorted).1 x hx
          omega

/-! ### Dock4 mode 1 -/

theorem setInternals_map_remarks (object : String) :
    ∀ (poses : List (Remarks × String)) (n : Int),
      (setInternals object n poses).map (fun ep => ep.1.remarks) =
        poses.map Prod.fst := by
  intro poses
  induction poses with
  | nil => intro n
           rfl
  | cons rp t ih =>
      intro n
      obtain ⟨r, p⟩ := rp
      simp [setInternals, ih]

theorem setInternals_mem (object : String) :
    ∀ {poses : List (Remarks × String)} {n : Int}
      {ep : Entry × String}, ep ∈ setInternals object n poses →
      ∃ rp ∈ poses, ep.1.remarks = rp.1 ∧ ep.1.obj = object := by
  intro poses
  induction poses with
  | nil => intro n ep h
           simp [setInternals] at h
  | cons rp t ih =>
      intro n ep h
      obtain ⟨r, p⟩ := rp
      rcases List.mem_cons.mp h with h | h
      · subst h
        exact ⟨(r, p), by simp, rfl, rfl⟩
      · obtain ⟨rp', hrp', h1, h2⟩ := ih h
        exact ⟨rp', by simp [hrp'], h1, h2⟩

theorem setInternals_all_key (object k : String) :
    ∀ (poses : List (Remarks × String)) (n : Int),
      ((setInternals object n poses).map Prod.fst).all
          (fun e => (keys e.remarks).contains k) =
        (poses.map Prod.fst).all (fun r => (keys r).contains k) := by
  intro poses
  induction poses with
  | nil => intro n
           rfl
  | cons rp t ih =>
      intro n
      obtain ⟨r, p⟩ := rp
      simp only [setInternals, List.map_cons, List.all_cons, ih]

theorem oneTo_cons (k : Nat) :
    oneTo (k + 1) = 1 :: (oneTo k).map (fun t => t + 1) := by
  unfold oneTo
  rw [List.range_succ_eq_map]
  simp only [List.map_cons, List.map_map]
  refine congrArg₂ _ (by simp) ?_
  refine List.map_congr_left ?_
  intro i _
  show ((i + 1 : Nat) : Int) + 1 = ((i : Int) + 1) + 1
  push_cast
  ring

theorem mode1Go_spec :
    ∀ (zp : List (Entry × String)) (nstate : Int),
      (∀ ep ∈ zp, "ClusterRank" ∈ keys ep.1.remarks) →
      ∃ out ps, mode1Go nstate zp = .ok (out, ps)
        ∧ out.map (·.remarks) =
            (zp.map (fun ep => ep.1.remarks)).filter
              (fun r => rget r "ClusterRank" == some (.vInt 0))
        ∧ out.map (·.state) = (oneTo out.length).map (fun t => nstate + t)
        ∧ (∀ x ∈ out, ∃ ep ∈ zp, x.obj = ep.1.obj) := by
  intro zp
  induction zp with
  | nil =>
      intro nstate _
      exact ⟨[], [], rfl, rfl, rfl, by simp⟩
  | cons ep t ih =>
      intro nstate hkeys
      obtain ⟨e, p⟩ := ep
      have hk : "ClusterRank" ∈ keys e.remarks := by
        have := hkeys (e, p) (by simp)
        simpa using this
      obtain ⟨v, hv⟩ : ∃ v, rget e.remarks "ClusterRank" = some v := by
        have := (rget_isSome_iff_mem_keys e.remarks "ClusterRank").mpr hk
        cases hr : rget e.remarks "ClusterRank" with
        | none => rw [hr] at this
                  cases this
        | some v => exact ⟨v, rfl⟩
      by_cases hv0 : v = .vInt 0
      · subst hv0
        obtain ⟨out, ps, hgo, hrem, hstates, hobj⟩ :=
          ih (nstate + 1) (fun ep hep => hkeys ep (by simp [hep]))
        refine ⟨{ e with state := nstate + 1 } :: out, p :: ps, ?_, ?_, ?_, ?_⟩
        · show mode1Go nstate ((e, p) :: t) = _
          unfold mode1Go
          simp only [hv]
          rw [if_pos trivial, hgo]
          rfl
        · simp only [List.map_cons, List.filter_cons]
          have hb : (rget e.remarks "ClusterRank" == some (Value.vInt 0)) = true := by
            rw [hv]
            simp
          rw [hb]
          simp only [if_true, List.cons.injEq, true_and]
          simpa using hrem
        · simp only [List.map_cons, List.length_cons, oneTo_cons,
            List.map_map]
          refine congrArg₂ List.cons ?_ ?_
          · rfl
          · rw [hstates]
            refine List.map_congr_left ?_
            intro t' _
            show nstate + 1 + t' = nstate + (t' + 1)
            ring
        · intro x hx
          rcases List.mem_cons.mp hx with hx | hx
          · subst hx
            exact ⟨(e, p), by simp, rfl⟩
          · obtain ⟨ep', hep', hx'⟩ := hobj x hx
            exact ⟨ep', by simp [hep'], hx'⟩
      · obtain ⟨out, ps, hgo, hrem, hstates, hobj⟩ :=
          ih nstate (fun ep hep => hkeys ep (by simp [hep]))
        refine ⟨out, ps, ?_, ?_, hstates, ?_⟩
        · show mode1Go nstate ((e, p) :: t) = _
          unfold mode1Go
          simp only [hv]
          rw [if_neg hv0]
          exact hgo
        · simp only [List.map_cons, List.filter_cons]
          have hb : (rget e.remarks "ClusterRank" == some (Value.vInt 0)) = false := by
            rw [hv]
            simpa using hv0
          rw [hb]
          simp only [Bool.false_eq_true, if_false]
          exact hrem
        · intro x hx
          obtain ⟨ep', hep', hx'⟩ := hobj x hx
          exact ⟨ep', by simp [hep'], hx'⟩

/-- C3: Dock4 mode 1 keeps exactly the `ClusterRank == 0` poses, renumbers
their states `1..k` in input order into the single target object, and fails
when any pose lacks the `ClusterRank` remark. -/
theorem load_dock4_mode1_spec (object : String)
    (poses : List (Remarks × String)) :
    ((∃ rp ∈ poses, "ClusterRank" ∉ keys rp.1) →
      load_dock4_mode object "1" poses = .error .missingClusterRank)
    ∧ ((∀ rp ∈ poses, "ClusterRank" ∈ keys rp.1) →
      ∃ out ps, load_dock4_mode object "1" poses = .ok ([(object, ps)], out)
        ∧ out.map (·.remarks) =
            (poses.map Prod.fst).filter
              (fun r => rget r "ClusterRank" == some (.vInt 0))
        ∧ out.map (·.state) = oneTo out.length
        ∧ ∀ x ∈ out, x.obj = object) := by
  have hallkey : ((setInternals object 0 poses).map Prod.fst).all
      (fun e => (keys e.remarks).contains "ClusterRank") =
      (poses.map Prod.fst).all (fun r => (keys r).contains "ClusterRank") :=
    setInternals_all_key object "ClusterRank" poses 0
  constructor
  · rintro ⟨rp, hrp, hmiss⟩
    unfold load_dock4_mode
    rw [if_pos rfl]
    have hfalse : (poses.map Prod.fst).all
        (fun r => (keys r).contains "ClusterRank") = false := by
      rw [List.all_eq_false]
      refine ⟨rp.1, List.mem_map.mpr ⟨rp, hrp, rfl⟩, ?_⟩
      simpa using hmiss
    rw [if_pos (by rw [hallkey, hfalse]
                   rfl)]
  · intro hall
    have htrue : (poses.map Prod.fst).all
        (fun r => (keys r).contains "ClusterRank") = true := by
      rw [List.all_eq_true]
      intro r hr
      obtain ⟨rp, hrp, hr'⟩ := List.mem_map.mp hr
      subst hr'
      simpa using hall rp hrp
    obtain ⟨out, ps, hgo, hrem, hstates, hobj⟩ :=
      mode1Go_spec (setInternals object 0 poses) 0
        (fun ep hep => by
          obtain ⟨rp, hrp, h1, _⟩ := setInternals_mem object hep
          rw [h1]
          exact hall rp hrp)
    refine ⟨out, ps, ?_, ?_, ?_, ?_⟩
    · unfold load_dock4_mode
      rw [if_pos rfl]
      rw [if_neg (by rw [hallkey, htrue]
                     simp)]
      rw [hgo]
    · rw [hrem]
      have : (setInternals object 0 poses).map (fun ep => ep.1.remarks) =
          poses.map Prod.fst := setInternals_map_remarks object poses 0
      rw [this]
    · rw [hstates]
      refine (List.map_congr_left ?_).trans (List.map_id _)
      intro t _
      show 0 + t = t
      ring
    · intro x hx
      obtain ⟨ep, hep, hx'⟩ := hobj x hx
      obtain ⟨rp, _, _, hobj'⟩ := setInternals_mem object hep
      rw [hx', hobj']

/-! ### Export -/

theorem mapM_fields_ok (r : Remarks) :
    ∀ (ks : List String), (∀ k ∈ ks, k ∈ keys r) →
      ks.mapM (fun k => match rget r k with
          | none => Except.error Err.keyError
          | some v => Except.ok (pyStr v)) =
        .ok (ks.map (fun k => pyStr ((rget r k).getD .vNone))) := by
  intro ks
  induction ks with
  | nil => intro _
           rfl
  | cons k t ih =>
      intro h
      obtain ⟨v, hv⟩ : ∃ v, rget r k = some v := by
        have hm := (rget_isSome_iff_mem_keys r k).mpr (h k (by simp))
        cases hr : rget r k with
        | none => rw [hr] at hm
                  cases hm
        | some v => exact ⟨v, rfl⟩
      rw [List.mapM_cons, ih (fun k' hk' => h k' (by simp [hk']))]
      simp only [hv, List.map_cons, Option.getD_some]
      rfl

theorem mapM_rows_ok (ks : List String) (joiner : String) :
    ∀ (entries : List Entry), (∀ e ∈ entries, ∀ k ∈ ks, k ∈ keys e.remarks) →
      entries.mapM (fun e => (ks.mapM (fun k => match rget e.remarks k with
          | none => Except.error Err.keyError
          | some v => Except.ok (pyStr v))).map
        (fun fields => String.intercalate joiner fields ++ "\n")) =
      .ok (entries.map (fun e => String.intercalate joiner
        (ks.map (fun k => pyStr ((rget e.remarks k).getD .vNone))) ++ "\n")) := by
  intro entries
  induction entries with
  | nil => intro _
           rfl
  | cons e t ih =>
      intro h
      rw [List.mapM_cons, mapM_fields_ok e.remarks ks (h e (by simp)),
        ih (fun e' he' => h e' (by simp [he']))]
      rfl

/-- C8 (amended): export fails with the no-entries error exactly on the
empty registry; on a non-empty registry whose entries all carry the first
entry's remark keys (the equalized situation) it produces one header line
and one line per entry in registry order, fields in the first entry's key
order joined by `;` (csv) or two spaces (txt), the txt header prefixed with
`#`. -/
theorem export_data_spec (entries : List Entry) (format : String)
    (hf : format = "csv" ∨ format = "txt") :
    (entries = [] → export_data entries format = .error .noEntries)
    ∧ (∀ e0 rest, entries = e0 :: rest →
        (∀ e ∈ entries, ∀ k ∈ keys e0.remarks, k ∈ keys e.remarks) →
        ∃ hline rows,
          export_data entries format = .ok (hline :: rows)
          ∧ rows = entries.map (fun e =>
              String.intercalate (exportJoiner format)
                ((keys e0.remarks).map
                  (fun k => pyStr ((rget e.remarks k).getD .vNone))) ++ "\n")
          ∧ rows.length = entries.length
          ∧ (format = "csv" →
              hline = String.intercalate ";" (keys e0.remarks) ++ "\n")
          ∧ (format = "txt" →
              hline = "#  " ++ String.intercalate "  " (keys e0.remarks) ++ "\n")
          ∧ (format = "txt" → ∃ srest, hline = "#" ++ srest)) := by
  constructor
  · intro hnil
    subst hnil
    rfl
  · intro e0 rest hentries hkeys
    subst hentries
    have hlower : pyLower format = format := by
      rcases hf with hf | hf <;> (subst hf; decide)
    have hhead : headKeys (e0 :: rest) = keys e0.remarks := rfl
    unfold export_data
    rw [if_neg (by simp), hlower, if_pos hf, hhead,
      mapM_rows_ok (keys e0.remarks) (exportJoiner format) (e0 :: rest) hkeys]
    refine ⟨_, _, rfl, rfl, ?_, ?_, ?_, ?_⟩
    · simp
    · intro hfc
      subst hfc
      rw [if_neg (by decide)]
      rfl
    · intro hft
      subst hft
      rw [if_pos rfl]
      rfl
    · intro hft
      subst hft
      rw [if_pos rfl]
      refine ⟨"  " ++ String.intercalate (exportJoiner "txt")
        (keys e0.remarks) ++ "\n", ?_⟩
      rw [show ("#  " : String) = "#" ++ "  " from by decide]
      rw [String.append_assoc, String.append_assoc, String.append_assoc]

/-! ### Claim theorems on equalization -/

theorem equalize_keyFinset_eq {h : List String} {r : List Entry}
    {h₁ : List String} {out : List Entry}
    (he : equalize_remarks h r = .ok (h₁, out)) :
    ∀ e ∈ out, keyFinset e = unionFinset out := by
  obtain ⟨pr, _, hmap⟩ := equalize_eq he
  intro e he'
  obtain ⟨e₀, he₀, hbe⟩ := by
    rw [hmap] at he'
    exact List.mem_map.mp he'
  refine Finset.ext fun k => ?_
  rw [mem_keyFinset, mem_unionFinset]
  subst hbe
  constructor
  · intro hk
    refine ⟨_, he', ?_⟩
    rw [mem_keyFinset]
    exact hk
  · rintro ⟨e', he'm, hk'⟩
    rw [mem_keyFinset] at hk'
    obtain ⟨e₁, he₁, hbe₁⟩ := by
      rw [hmap] at he'm
      exact List.mem_map.mp he'm
    subst hbe₁
    have hkU : k ∈ remarksUnion pr := by
      rcases (mem_keys_backfill _ _ _).mp hk' with hk' | hk'
      · exact mem_remarksUnion.mpr ⟨e₁, he₁, hk'⟩
      · exact hk'
    exact (mem_keys_backfill _ _ _).mpr (Or.inr hkU)

/-- C5: after `equalize_remarks`, every entry carries the same remark-key
set, namely the union of the keys over all entries; existing remark values
and the internal fields are unchanged (relative to the pruned registry the
call produced first, see `remove_without_objects`), and keys that were
absent are back-filled with `None`.  Because every embedded bulk load ends
with `equalize_remarks`, the common-key-set property holds at the end of
`load_dock4` and `load_xyz` as well. -/
theorem equalize_remarks_spec (host : List String) (entries : List Entry)
    (h' : List String) (out : List Entry)
    (he : equalize_remarks host entries = .ok (h', out)) :
    (∀ e ∈ out, keyFinset e = unionFinset out)
    ∧ (∀ (host0 : List String) (reg : List Entry) (object mode : String)
        (poses : List (Remarks × String)) (h2 : List String)
        (out2 : List Entry),
        load_dock4 host0 reg object mode poses = .ok (h2, out2) →
        ∀ e ∈ out2, keyFinset e = unionFinset out2)
    ∧ (∀ (host0 : List String) (reg : List Entry) (lines : List String)
        (object : String) (h2 : List String) (out2 : List Entry),
        load_xyz host0 reg lines object = .ok (h2, out2) →
        ∀ e ∈ out2, keyFinset e = unionFinset out2)
    ∧ ∃ pr, remove_without_objects host entries = .ok (h', pr)
        ∧ out.length = pr.length
        ∧ ∀ i (hi : i < pr.length) (ho : i < out.length),
            (out.get ⟨i, ho⟩).obj = (pr.get ⟨i, hi⟩).obj
            ∧ (out.get ⟨i, ho⟩).state = (pr.get ⟨i, hi⟩).state
            ∧ (∀ k v, rget (pr.get ⟨i, hi⟩).remarks k = some v →
                rget (out.get ⟨i, ho⟩).remarks k = some v)
            ∧ (∀ k, k ∉ keys (pr.get ⟨i, hi⟩).remarks →
                k ∈ keys (out.get ⟨i, ho⟩).remarks →
                rget (out.get ⟨i, ho⟩).remarks k = some .vNone) := by
  refine ⟨equalize_keyFinset_eq he, ?_, ?_, ?_⟩
  · intro host0 reg object mode poses h2 out2 hld
    unfold load_dock4 at hld
    cases hm : load_dock4_mode object mode poses with
    | error er =>
        rw [hm] at hld
        cases hld
    | ok gp =>
        obtain ⟨groups, new⟩ := gp
        rw [hm] at hld
        have hld' : equalize_remarks
            ((groups.map Prod.fst).foldl addObject host0) (reg ++ new)
            = .ok (h2, out2) := hld
        exact equalize_keyFinset_eq hld'
  · intro host0 reg lines object h2 out2 hld
    unfold load_xyz at hld
    cases hc : xyzComments lines with
    | error er =>
        rw [hc] at hld
        cases hld
    | ok comments =>
        rw [hc] at hld
        have hld2 : (if comments.all pyIsFloat
            then (comments.mapM pyFloat >>= fun y =>
              equalize_remarks (addObject host0 object)
                (reg ++ xyzEntries object 0 y))
            else (pure comments >>= fun y =>
              equalize_remarks (addObject host0 object)
                (reg ++ xyzEntries object 0 y))) = .ok (h2, out2) := hld
        by_cases hb : comments.all pyIsFloat
        · rw [if_pos hb] at hld2
          cases hm3 : comments.mapM pyFloat with
          | error er =>
              rw [hm3] at hld2
              cases hld2
          | ok comments2 =>
              rw [hm3] at hld2
              have hld' : equalize_remarks (addObject host0 object)
                  (reg ++ xyzEntries object 0 comments2)
                  = .ok (h2, out2) := hld2
              exact equalize_keyFinset_eq hld'
        · rw [if_neg hb] at hld2
          have hld' : equalize_remarks (addObject host0 object)
              (reg ++ xyzEntries object 0 comments) = .ok (h2, out2) := hld2
          exact equalize_keyFinset_eq hld'
  obtain ⟨pr, hrwo, hmap⟩ := equalize_eq he
  refine ⟨pr, hrwo, by rw [hmap]
                       simp, ?_⟩
  intro i hi ho
  have hget : out.get ⟨i, ho⟩ = { pr.get ⟨i, hi⟩ with
      remarks := backfill (pr.get ⟨i, hi⟩).remarks (remarksUnion pr) } := by
    have := hmap
    subst this
    simp
  rw [hget]
  refine ⟨rfl, rfl, ?_, ?_⟩
  · intro k v hv
    exact backfill_preserves _ _ _ _ hv
  · intro k hkabs hkmem
    have hkU : k ∈ remarksUnion pr := by
      rcases (mem_keys_backfill _ _ _).mp hkmem with hk | hk
      · exact absurd hk hkabs
      · exact hk
    exact backfill_new _ _ _ hkabs hkU

/-- C6: `equalize_remarks` is idempotent — a second call yields the same
remark-key set for each entry (indeed the same registry). -/
theorem equalize_remarks_idem (host : List String) (entries : List Entry)
    (h₁ : List String) (r₁ : List Entry) (h₂ : List String) (r₂ : List Entry)
    (e1 : equalize_remarks host entries = .ok (h₁, r₁))
    (e2 : equalize_remarks h₁ r₁ = .ok (h₂, r₂)) :
    r₂.map keyFinset = r₁.map keyFinset := by
  have hfix := equalize_fix e1
  rw [e2] at hfix
  injection hfix with hpair
  rw [Prod.ext_iff] at hpair
  obtain ⟨_, hr⟩ := hpair
  simp only at hr
  rw [hr]

theorem remove_ndx_dead_object {h : List String} {r : List Entry} {j : Nat}
    {e : Entry} (hnd : r[j]? = some e) (hh : e.obj ∉ h) (u : Bool) :
    remove_ndx h r j u = .ok (h, r.eraseIdx j) := by
  unfold remove_ndx
  rw [hnd]
  simp only [if_neg hh]

theorem filter_eraseIdx_of_p {r : List Entry} {j : Nat} {e : Entry}
    {p : Entry → Bool} (hnd : r[j]? = some e) (hpe : p e = true) :
    (r.eraseIdx j).filter (fun x => !p x) = r.filter (fun x => !p x) := by
  obtain ⟨l₁, l₂, hsplit, hlen, herase⟩ := getElem?_split hnd
  rw [herase, hsplit, List.filter_append, List.filter_append,
    List.filter_cons]
  simp [hpe]

/-- When every matched entry's internal object is dead on the host, the
descending removal fold is exactly a filter: each step erases its entry
without renumbering and without touching the host. -/
theorem nsRemoveFold {o : String} :
    ∀ (asc : List Nat) (h : List String) (r : List Entry),
      (∀ e ∈ r, pObj o e = true → e.obj ∉ h) →
      posListFrom (pObj o) 0 r = asc →
      asc.reverse.foldlM (fun st n => remove_ndx st.1 st.2 n true)
        ((h, r) : List String × List Entry)
        = .ok (h, r.filter (fun e => !pObj o e)) := by
  intro asc
  induction asc using List.reverseRecOn with
  | nil =>
      intro h r _ hpos
      have hfull : r.filter (fun e => !pObj o e) = r :=
        List.filter_eq_self.mpr (fun e he => by
          rw [posListFrom_eq_nil_iff.mp hpos e he]
          rfl)
      rw [hfull]
      rfl
  | append_singleton init j ih =>
      intro h r hside hpos
      have hjmem : j ∈ posListFrom (pObj o) 0 r := by
        rw [hpos]
        simp
      obtain ⟨hjlt, hpj⟩ := posListFrom_mem_zero.mp hjmem
      have hsome : r[j]? = some (r.get ⟨j, hjlt⟩) := by
        simp [List.getElem?_eq_getElem hjlt]
      have hobj : (r.get ⟨j, hjlt⟩).obj ∉ h :=
        hside _ (List.get_mem r j hjlt) hpj
      rw [List.reverse_append, List.reverse_singleton, List.singleton_append,
        List.foldlM_cons, remove_ndx_dead_object hsome hobj true]
      have herase : posListFrom (pObj o) 0 (r.eraseIdx j) = init := by
        have := posListFrom_eraseIdx_last (p := pObj o) r 0 init j
          (by simpa using hpos)
        simpa using this
      have hside' : ∀ e ∈ r.eraseIdx j, pObj o e = true → e.obj ∉ h :=
        fun e he hpe => hside e ((List.eraseIdx_sublist r j).subset he) hpe
      have hrest := ih h (r.eraseIdx j) hside' herase
      rw [filter_eraseIdx_of_p hsome hpj] at hrest
      exact hrest

/-- On a shadow-free registry, removing a dead object is exactly the filter
dropping that object's entries. -/
theorem removeMatching_noShadow_filter (h : List String) (r : List Entry)
    (o : String) (hns : NoShadow r) (ho : o ∉ h) :
    removeMatching h r true [("object", .vStr o)]
      = .ok (h, r.filter (fun e => !pObj o e)) := by
  unfold removeMatching
  rw [findall_obj]
  show ((sortDesc (posListFrom (pObj o) 0 r)).foldlM _ _ : Except Err _) = _
  rw [sortDesc_of_pairwise (posListFrom_pairwise (pObj o) 0 r)]
  refine nsRemoveFold (posListFrom (pObj o) 0 r) h r ?_ rfl
  intro e he hpe
  rw [pObj_of_noShadow (hns e he)] at hpe
  have heo : e.obj = o := by simpa using hpe
  rw [heo]
  exact ho

/-- On a shadow-free registry, the pruning fold over a list of dead object
names is exactly the filter keeping the entries of other objects. -/
theorem nsPruneFold :
    ∀ (gs : List String) (h : List String) (r : List Entry),
      NoShadow r → (∀ o ∈ gs, o ∉ h) →
      gs.foldlM
        (fun st o => removeMatching st.1 st.2 true [("object", .vStr o)])
        ((h, r) : List String × List Entry)
        = .ok (h, r.filter (fun e => decide (e.obj ∉ gs))) := by
  intro gs
  induction gs with
  | nil =>
      intro h r _ _
      have hfull : r.filter
          (fun e => decide (e.obj ∉ ([] : List String))) = r :=
        List.filter_eq_self.mpr (fun e _ => by simp)
      rw [hfull]
      rfl
  | cons o gs ih =>
      intro h r hns hgs
      rw [List.foldlM_cons,
        removeMatching_noShadow_filter h r o hns (hgs o (by simp))]
      have hns' : NoShadow (r.filter (fun e => !pObj o e)) :=
        fun e he => hns e (List.mem_of_mem_filter he)
      have hff : (r.filter (fun e => !pObj o e)).filter
          (fun e => decide (e.obj ∉ gs))
          = r.filter (fun e => decide (e.obj ∉ o :: gs)) := by
        rw [List.filter_filter]
        refine List.filter_congr ?_
        intro e he
        rw [pObj_of_noShadow (hns e he)]
        by_cases h1 : e.obj = o
        · simp [h1]
        · by_cases h2 : e.obj ∈ gs <;> simp [h1, h2]
      have hrest := ih h (r.filter (fun e => !pObj o e)) hns'
        (fun o' ho' => hgs o' (by simp [ho']))
      rw [hff] at hrest
      exact hrest

/-- On a shadow-free registry, `remove_without_objects` keeps exactly the
entries whose internal object is still on the host, untouched and in order,
and leaves the host set unchanged. -/
theorem rwo_noShadow_filter (host : List String) (entries : List Entry)
    (hns : NoShadow entries) :
    remove_without_objects host entries
      = .ok (host, entries.filter (fun e => decide (e.obj ∈ host))) := by
  unfold remove_without_objects
  have hdead : ∀ o ∈ (objectsList entries).filter
      (fun o => !host.contains o), o ∉ host := by
    intro o ho
    simp only [List.mem_filter, Bool.not_eq_true'] at ho
    simpa using ho.2
  rw [nsPruneFold ((objectsList entries).filter
      (fun o => !host.contains o)) host entries hns hdead]
  have hfc : entries.filter (fun e => decide (e.obj ∉
      (objectsList entries).filter (fun o => !host.contains o)))
      = entries.filter (fun e => decide (e.obj ∈ host)) := by
    refine List.filter_congr ?_
    intro e he
    have hobj : e.obj ∈ objectsList entries :=
      mem_objectsList.mpr ⟨e, he, rfl⟩
    by_cases hh : e.obj ∈ host
    · simp [List.mem_filter, hh]
    · simp [List.mem_filter, hh, hobj]
  rw [hfc]

/-- C10 (amended): `equalize_remarks` prunes by the unified-dict object
lookup, in which an explicit `object` remark shadows the internal field;
when no entry carries such a remark the pruning removes exactly the entries
whose object is absent from the host — the survivors are precisely the
entries with a live object, in registry order, with internal fields
unchanged and remarks only back-filled — and the host set is untouched, so
afterwards every remaining entry's object is among the host's objects. -/
theorem equalize_remarks_prunes_orphans (host : List String)
    (entries : List Entry) (hns : NoShadow entries) :
    equalize_remarks host entries = .ok (host,
      (entries.filter (fun e => decide (e.obj ∈ host))).map
        (fun e => { e with remarks := (backfill e.remarks
          (remarksUnion
            (entries.filter (fun e => decide (e.obj ∈ host))))) })) := by
  unfold equalize_remarks
  rw [rwo_noShadow_filter host entries hns]
  rfl

/-! ### Remaining claim theorems, counterexamples and witnesses -/

/-- C2: Dock4 mode 2 at the cluster input `{1, 1, 2}` under base name
`base`.  The split into per-cluster objects and their pose counts match the
claim (`base-1` holds 2 poses, `base-2` holds 1), but the recorded state
indices are `2, 3` and `2`: the source reads `len(pdb_tmp[object_new]) + 1`
after appending, so states are 2-based, not the claimed contiguous
1-based `1..N`. -/
theorem load_dock4_mode2_states_offset :
    load_dock4_mode "base" "2"
      [([("Cluster", .vInt 1)], "p1"), ([("Cluster", .vInt 1)], "p2"),
       ([("Cluster", .vInt 2)], "p3")]
    = .ok ([("base-1", ["p1", "p2"]), ("base-2", ["p3"])],
      [⟨[("Cluster", .vInt 1)], "base-1", 2⟩,
       ⟨[("Cluster", .vInt 1)], "base-1", 3⟩,
       ⟨[("Cluster", .vInt 2)], "base-2", 2⟩])
    ∧ statesOf [⟨[("Cluster", .vInt 1)], "base-1", 2⟩,
       ⟨[("Cluster", .vInt 1)], "base-1", 3⟩,
       ⟨[("Cluster", .vInt 2)], "base-2", 2⟩] "base-1" ≠ oneTo 2
    ∧ load_dock4_mode "base" "2" [([("z", .vInt 0)], "p")]
        = .error .missingCluster := by decide

/-- C9: `load_xyz` on a one-frame file whose comment is the numeric-looking
string `1.5`.  The stored `value` remark is still the string `1.5`: the
coercion guard `all(isinstance(i, float) for i in comments)` is false for
every string, so the claimed number coercion never happens. -/
theorem load_xyz_comment_not_coerced :
    load_xyz [] [] ["1", "1.5", "C 0.0 0.0 0.0"] "m"
      = .ok (["m"],
        [⟨[("structure", .vInt 1), ("value", .vStr "1.5")], "m", 1⟩])
    ∧ rget [("structure", Value.vInt 1), ("value", Value.vStr "1.5")] "value"
        = some (.vStr "1.5") := by decide

/-- C4 counterexample: with the host not knowing object `m`, `remove_ndx`
still deletes the entry, so the registry does change — the call is not a
no-op as claimed. -/
theorem remove_ndx_unknown_object_deletes :
    remove_ndx [] [⟨[], "m", 1⟩] 0 true = .ok ([], [])
    ∧ ([⟨[], "m", 1⟩] : List Entry) ≠ [] := by decide

/-- C4 (amended): when the removed entry's object is no longer known to the
host, `remove_ndx` raises no error, still deletes the entry, and skips both
the host-side rebuild and the sibling-state renumbering, leaving every other
entry (and the host set) unchanged. -/
theorem remove_ndx_unknown_object_spec (host : List String)
    (entries : List Entry) (ndx : Nat) (update : Bool) (e : Entry)
    (hnd : entries[ndx]? = some e) (hh : e.obj ∉ host) :
    remove_ndx host entries ndx update = .ok (host, entries.eraseIdx ndx) := by
  unfold remove_ndx
  rw [hnd]
  simp only [if_neg hh]

/-- Witness for the amended C4 at a concrete registry. -/
theorem remove_ndx_unknown_object_spec_witness :
    remove_ndx ["a"] [⟨[("x", .vInt 1)], "m", 1⟩, ⟨[], "a", 1⟩] 0 true
      = .ok (["a"], [⟨[], "a", 1⟩]) :=
  remove_ndx_unknown_object_spec ["a"]
    [⟨[("x", .vInt 1)], "m", 1⟩, ⟨[], "a", 1⟩] 0 true
    ⟨[("x", .vInt 1)], "m", 1⟩ rfl (by decide)

/-- C1 counterexample: removing state 1 of an object with states `1..2`
whose name the host no longer knows deletes the entry but renumbers
nothing, so the survivor keeps state 2 — not the claimed contiguous
`1..N-1`. -/
theorem remove_ndx_renumber_needs_live_object :
    remove_ndx [] [⟨[], "m", 1⟩, ⟨[], "m", 2⟩] 0 true
      = .ok ([], [⟨[], "m", 2⟩])
    ∧ ¬(statesOf [⟨[], "m", 2⟩] "m").Perm (oneTo 1) := by decide

/-- Witness for the amended C1: removing the middle state of `1..3` with
the object alive on the host leaves states permuting `1..2`. -/
theorem remove_ndx_renumber_contiguous_witness :
    ∃ h' r', remove_ndx ["m"]
      [⟨[("a", .vInt 4)], "m", 1⟩, ⟨[("a", .vInt 5)], "m", 2⟩,
       ⟨[("a", .vInt 6)], "m", 3⟩] 1 true = .ok (h', r')
      ∧ (statesOf r' "m").Perm (oneTo (3 - 1)) :=
  remove_ndx_renumber_contiguous ["m"]
    [⟨[("a", .vInt 4)], "m", 1⟩, ⟨[("a", .vInt 5)], "m", 2⟩,
     ⟨[("a", .vInt 6)], "m", 3⟩] 1 ⟨[("a", .vInt 5)], "m", 2⟩ 3
    (by decide) rfl (by decide) (by decide)

/-- Input poses for the C3 witness: `ClusterRank` values `0, 1, 0, 2`. -/
def c3poses : List (Remarks × String) :=
  [([("ClusterRank", .vInt 0)], "a"), ([("ClusterRank", .vInt 1)], "b"),
   ([("ClusterRank", .vInt 0)], "c"), ([("ClusterRank", .vInt 2)], "d")]

/-- Witness for C3: the `{0, 1, 0, 2}` cluster yields exactly the two
rank-0 poses with states `1..2`. -/
theorem load_dock4_mode1_spec_witness :
    (∀ rp ∈ c3poses, "ClusterRank" ∈ keys rp.1)
    ∧ (∃ out ps, load_dock4_mode "base" "1" c3poses = .ok ([("base", ps)], out)
        ∧ out.map (·.remarks) =
            (c3poses.map Prod.fst).filter
              (fun r => rget r "ClusterRank" == some (.vInt 0))
        ∧ out.map (·.state) = oneTo out.length
        ∧ ∀ x ∈ out, x.obj = "base") :=
  ⟨by decide, (load_dock4_mode1_spec "base" c3poses).2 (by decide)⟩

/-- Input registry for the C5 witness. -/
def c5in : List Entry :=
  [⟨[("x", .vInt 1)], "a", 1⟩, ⟨[("y", .vInt 2)], "a", 2⟩]

/-- Output registry for the C5 witness: both key sets equalized. -/
def c5out : List Entry :=
  [⟨[("x", .vInt 1), ("y", .vNone)], "a", 1⟩,
   ⟨[("y", .vInt 2), ("x", .vNone)], "a", 2⟩]

/-- Witness for C5 at a concrete two-entry registry. -/
theorem equalize_remarks_spec_witness :
    keyFinset ⟨[("x", .vInt 1), ("y", .vNone)], "a", 1⟩ = unionFinset c5out
    ∧ keyFinset ⟨[("y", .vInt 2), ("x", .vNone)], "a", 2⟩ = unionFinset c5out :=
  ⟨(equalize_remarks_spec ["a"] c5in ["a"] c5out (by decide)).1 _ (by decide),
   (equalize_remarks_spec ["a"] c5in ["a"] c5out (by decide)).1 _ (by decide)⟩

/-- Registry reaching the C6 witness after one equalization (the `gone`
entry pruned, keys equalized). -/
def c6in : List Entry :=
  [⟨[("x", .vInt 1)], "a", 1⟩, ⟨[("y", .vInt 2)], "gone", 1⟩]

/-- The C6 witness registry after the first call. -/
def c6r1 : List Entry := [⟨[("x", .vInt 1)], "a", 1⟩]

/-- Witness for C6: two successive equalizations on a concrete registry
yield the same per-entry key sets. -/
theorem equalize_remarks_idem_witness :
    c6r1.map keyFinset = c6r1.map keyFinset :=
  equalize_remarks_idem ["a"] c6in ["a"] c6r1 ["a"] c6r1
    (by decide) (by decide)

/-- Input registry for the C7 witness. -/
def c7entries : List Entry :=
  [⟨[("a", .vInt 1)], "m", 1⟩, ⟨[("a", .vInt 2)], "m", 2⟩,
   ⟨[("a", .vInt 2)], "m", 3⟩]

/-- Witness for C7: `findall` yields `[1, 2]`, `find` yields the lowest. -/
theorem find_first_lowest_witness :
    find c7entries true [("a", .vInt 2)] = .ok (some 1) :=
  (find_first_lowest c7entries true [("a", .vInt 2)] [1, 2] (by decide)).1

/-- Ragged registry for the C8 counterexample: the second entry lacks the
first entry's key `a`. -/
def c8ragged : List Entry :=
  [⟨[("a", .vInt 1)], "m", 1⟩, ⟨[("b", .vInt 2)], "m", 2⟩]

/-- C8 counterexample: exporting a non-empty registry whose entries do not
share the first entry's keys raises a key error before writing anything,
so export does not write lines for every non-empty registry. -/
theorem export_data_ragged_raises :
    export_data c8ragged "csv" = .error .keyError
    ∧ c8ragged.length ≠ 0 := by decide

/-- Single-entry registry for the C8 witness. -/
def c8entry : Entry := ⟨[("MODEL", .vInt 1)], "m", 1⟩

/-- Witness for the amended C8: a one-entry txt export produces two lines,
the header starting with `#`. -/
theorem export_data_spec_witness :
    ∃ hline rows, export_data [c8entry] "txt" = .ok (hline :: rows)
      ∧ rows = [c8entry].map (fun e =>
          String.intercalate (exportJoiner "txt")
            ((keys c8entry.remarks).map
              (fun k => pyStr ((rget e.remarks k).getD .vNone))) ++ "\n")
      ∧ rows.length = [c8entry].length
      ∧ ("txt" = "csv" →
          hline = String.intercalate ";" (keys c8entry.remarks) ++ "\n")
      ∧ ("txt" = "txt" →
          hline = "#  " ++ String.intercalate "  " (keys c8entry.remarks) ++ "\n")
      ∧ ("txt" = "txt" → ∃ srest, hline = "#" ++ srest) :=
  (export_data_spec [c8entry] "txt" (Or.inr rfl)).2 c8entry [] rfl (by decide)

/-- C10 counterexample: an entry whose `object` remark shadows its vanished
internal object survives equalization, so not every surviving entry points
at a host object. -/
theorem equalize_remarks_shadowed_orphan :
    equalize_remarks [] [⟨[("object", .vStr "x")], "gone", 1⟩]
      = .ok ([], [⟨[("object", .vStr "x")], "gone", 1⟩])
    ∧ ("gone" : String) ∉ ([] : List String) := by decide

/-- Input registry for the C10 witness. -/
def c10in : List Entry :=
  [⟨[("x", .vInt 1)], "gone", 1⟩, ⟨[("y", .vInt 2)], "a", 1⟩]

/-- Witness for the amended C10 at a concrete registry with one orphan:
the `gone` entry is removed and the live entry survives unchanged. -/
theorem equalize_remarks_prunes_orphans_witness :
    equalize_remarks ["a"] c10in
      = .ok (["a"], [⟨[("y", .vInt 2)], "a", 1⟩]) :=
  equalize_remarks_prunes_orphans ["a"] c10in (by decide)

end PyViewDock
